import Mathlib

/-!
Verification of the stockgpt indicator engine, comparison engine and insight
cache against their natural-language specification.

The embedding follows the source files
`src/analysis.py` (function `analyze_data`, the primary indicator engine),
`src/comparison.py` (class `StockComparison`) and
`src/stockgpt.py` (method `StockGPT.generate_insights`).

Numeric model: the Python code computes with IEEE-754 doubles through
pandas/numpy.  We model a double as `FVal`: either a finite rational,
`+inf`, `-inf` or `nan`, with the IEEE propagation and comparison rules,
and with finite arithmetic carried out exactly over `ℚ` (rounding is not
modelled; every claim under scrutiny concerns signs, bounds, undefinedness
or exact algebraic identities, none of which depend on rounding).
The real-valued square root (`numpy.sqrt`, and the square root inside
`pandas.std`) is modelled by `Rat.sqrt`, a rational approximation that is
exact at squares of rationals; every claim evaluates a square root only at
a perfect square (in particular at 0), where the model agrees with the
real square root exactly.  Signed zero is collapsed to `0`.
Exceptions (`IndexError` from `.iloc` on an empty frame) are modelled by
`Option`: `none` means the Python code raises.
-/

namespace StockGPT

/-- An IEEE-754 double as computed by numpy/pandas: `nan`, `+inf`, `-inf`
or a finite value (held exactly as a rational). -/
inductive FVal where
  | nan : FVal
  | inf : FVal
  | ninf : FVal
  | fin : ℚ → FVal
deriving DecidableEq

namespace FVal

/-- IEEE negation. -/
def neg : FVal → FVal
  | nan => nan
  | inf => ninf
  | ninf => inf
  | fin q => fin (-q)

/-- IEEE addition: `nan` propagates, `inf + -inf = nan`. -/
def add : FVal → FVal → FVal
  | nan, _ => nan
  | _, nan => nan
  | inf, ninf => nan
  | ninf, inf => nan
  | inf, _ => inf
  | _, inf => inf
  | ninf, _ => ninf
  | _, ninf => ninf
  | fin a, fin b => fin (a + b)

/-- IEEE subtraction. -/
def sub (x y : FVal) : FVal := x.add y.neg

/-- IEEE multiplication: `inf * 0 = nan`. -/
def mul : FVal → FVal → FVal
  | nan, _ => nan
  | _, nan => nan
  | inf, inf => inf
  | inf, ninf => ninf
  | ninf, inf => ninf
  | ninf, ninf => inf
  | inf, fin b => if 0 < b then inf else if b < 0 then ninf else nan
  | fin a, inf => if 0 < a then inf else if a < 0 then ninf else nan
  | ninf, fin b => if 0 < b then ninf else if b < 0 then inf else nan
  | fin a, ninf => if 0 < a then ninf else if a < 0 then inf else nan
  | fin a, fin b => fin (a * b)

/-- IEEE division: `x/0` is `±inf` for `x ≠ 0` and `nan` for `0/0`
(this is numpy behaviour on arrays: a warning, not an exception);
`inf/inf = nan`; finite divided by infinite is `0`. -/
def div : FVal → FVal → FVal
  | nan, _ => nan
  | _, nan => nan
  | inf, inf => nan
  | inf, ninf => nan
  | ninf, inf => nan
  | ninf, ninf => nan
  | inf, fin b => if b < 0 then ninf else inf
  | ninf, fin b => if b < 0 then inf else ninf
  | fin _, inf => fin 0
  | fin _, ninf => fin 0
  | fin a, fin b =>
    if b = 0 then (if 0 < a then inf else if a < 0 then ninf else nan)
    else fin (a / b)

/-- IEEE strict less-than: any comparison with `nan` is false. -/
def blt : FVal → FVal → Bool
  | nan, _ => false
  | _, nan => false
  | inf, _ => false
  | _, inf => true
  | ninf, ninf => false
  | ninf, fin _ => true
  | fin _, ninf => false
  | fin a, fin b => decide (a < b)

/-- IEEE less-or-equal: any comparison with `nan` is false. -/
def ble : FVal → FVal → Bool
  | nan, _ => false
  | _, nan => false
  | ninf, _ => true
  | _, ninf => false
  | _, inf => true
  | inf, fin _ => false
  | fin a, fin b => decide (a ≤ b)

/-- Is this value `nan`? -/
def isNaN : FVal → Bool
  | nan => true
  | _ => false

/-- Is this value finite (neither `nan` nor infinite)? -/
def isFinite : FVal → Bool
  | fin _ => true
  | _ => false

/-- Python `==` on floats: `nan` is not equal to anything, including itself. -/
def pyEq : FVal → FVal → Bool
  | inf, inf => true
  | ninf, ninf => true
  | fin a, fin b => decide (a = b)
  | _, _ => false

/-- Square root of a double (`numpy.sqrt` / the square root inside
`pandas.std`): `nan` below 0, modelled on finite values by `Rat.sqrt`,
which agrees with the real square root at every perfect rational square. -/
def fsqrt : FVal → FVal
  | nan => nan
  | inf => inf
  | ninf => nan
  | fin q => if q < 0 then nan else fin (Rat.sqrt q)

end FVal

open FVal

/-- A pandas numeric series: a list of doubles. -/
abbrev Series := List FVal

/-- A raw data column (prices fetched from the source are finite). -/
def ofQ (l : List ℚ) : Series := l.map FVal.fin

/-- `series.iloc[-1]`: `none` models the `IndexError` raised on an empty
series. -/
def ilast? (s : Series) : Option FVal := s[s.length - 1]?

/-- `series.iloc[0]`. -/
def ihead? (s : Series) : Option FVal := s[0]?

/-- The value of `series.iloc[-1]` when it exists (default `nan`). -/
def ilastD (s : Series) : FVal := (ilast? s).getD FVal.nan

/-- The value of `series.iloc[0]` when it exists (default `nan`). -/
def iheadD (s : Series) : FVal := (ihead? s).getD FVal.nan

/-- `Series.diff()`: first entry `nan`, then consecutive differences. -/
def diffS (s : Series) : Series :=
  match s with
  | [] => []
  | _ :: t => FVal.nan :: List.zipWith FVal.sub t s

/-- `Series.pct_change()`: first entry `nan`, then `x[i]/x[i-1] - 1`. -/
def pctChange (s : Series) : Series :=
  match s with
  | [] => []
  | _ :: t => FVal.nan :: List.zipWith (fun a b => (a.div b).sub (FVal.fin 1)) t s

/-- `Series.mean()` (pandas default `skipna=True`): the mean of the
non-`nan` entries, `nan` when there are none. -/
def smean (s : Series) : FVal :=
  let vs := s.filter fun v => !v.isNaN
  if vs.length = 0 then FVal.nan
  else (vs.foldr FVal.add (FVal.fin 0)).div (FVal.fin (vs.length : ℚ))

/-- `Series.std()` (pandas defaults `skipna=True`, `ddof=1`): sample
standard deviation of the non-`nan` entries, `nan` when fewer than two. -/
def sstd (s : Series) : FVal :=
  let vs := s.filter fun v => !v.isNaN
  if vs.length < 2 then FVal.nan
  else
    let m := (vs.foldr FVal.add (FVal.fin 0)).div (FVal.fin (vs.length : ℚ))
    let sq := (vs.map fun v => (v.sub m).mul (v.sub m)).foldr FVal.add (FVal.fin 0)
    FVal.fsqrt (sq.div (FVal.fin ((vs.length : ℚ) - 1)))

/-- `Series.max()` (`skipna=True`): largest non-`nan` entry, `nan` when
there is none. -/
def smax (s : Series) : FVal :=
  match s.filter (fun v => !v.isNaN) with
  | [] => FVal.nan
  | h :: t => t.foldl (fun a b => if a.blt b then b else a) h

/-- `Series.min()` (`skipna=True`). -/
def smin (s : Series) : FVal :=
  match s.filter (fun v => !v.isNaN) with
  | [] => FVal.nan
  | h :: t => t.foldl (fun a b => if b.blt a then b else a) h

/-- The window `s[i-k+1 .. i]` feeding `rolling(window=k)` at index `i`. -/
def window (s : Series) (k i : Nat) : Series := (s.take (i + 1)).drop (i + 1 - k)

/-- `Series.rolling(window=k)` followed by an aggregation `f`: entries
before index `k-1` are `nan` (pandas default `min_periods = k`). -/
def rollingApply (k : Nat) (f : Series → FVal) (s : Series) : Series :=
  (List.range s.length).map fun i => if i + 1 < k then FVal.nan else f (window s k i)

/-- Mean of a full window of size `k` (a `nan` inside the window
propagates, as in pandas rolling aggregation). -/
def wmean (k : Nat) (w : Series) : FVal :=
  (w.foldr FVal.add (FVal.fin 0)).div (FVal.fin (k : ℚ))

/-- Sample standard deviation (`ddof=1`) of a full window of size `k`. -/
def wstd (k : Nat) (w : Series) : FVal :=
  let m := wmean k w
  FVal.fsqrt
    (((w.map fun v => (v.sub m).mul (v.sub m)).foldr FVal.add (FVal.fin 0)).div
      (FVal.fin ((k : ℚ) - 1)))

/-- Maximum of a full window (`nan` inside the window propagates). -/
def wmax : Series → FVal
  | [] => FVal.nan
  | h :: t => t.foldl (fun a b => if a.isNaN || b.isNaN then FVal.nan else if a.blt b then b else a) h

/-- Minimum of a full window (`nan` inside the window propagates). -/
def wmin : Series → FVal
  | [] => FVal.nan
  | h :: t => t.foldl (fun a b => if a.isNaN || b.isNaN then FVal.nan else if b.blt a then b else a) h

/-- `Series.rolling(window=k).mean()`. -/
def rollingMean (k : Nat) (s : Series) : Series := rollingApply k (wmean k) s

/-- `Series.rolling(window=k).std()`. -/
def rollingStd (k : Nat) (s : Series) : Series := rollingApply k (wstd k) s

/-- `Series.rolling(window=k).max()`. -/
def rollingMax (k : Nat) (s : Series) : Series := rollingApply k wmax s

/-- `Series.rolling(window=k).min()`. -/
def rollingMin (k : Nat) (s : Series) : Series := rollingApply k wmin s

/-- The tail recursion of `Series.ewm(span, adjust=False).mean()`:
`y_i = (1-alpha) * y_{i-1} + alpha * x_i`.  The inputs fed to `ewm` by
`analyze_data` (close prices, the MACD line) never contain `nan`. -/
def ewmAux (al : ℚ) (y : FVal) : List FVal → List FVal
  | [] => []
  | x :: xs =>
    let y2 := ((FVal.fin (1 - al)).mul y).add ((FVal.fin al).mul x)
    y2 :: ewmAux al y2 xs

/-- `Series.ewm(span=span, adjust=False).mean()` with
`alpha = 2/(span+1)`, seeded by the first value of the series. -/
def ewmMean (span : Nat) (s : Series) : Series :=
  match s with
  | [] => []
  | x :: xs => x :: ewmAux (2 / ((span : ℚ) + 1)) x xs

/-- The OHLCV frame handed to `analyze_data`: the five base columns of a
pandas DataFrame, equal-length and position-aligned.  (The optional
company-info columns of `analysis.py` lines 55-58 — sector, industry,
market_cap, … — are absent from this base schema, so the passthrough loop
contributes no field.) -/
structure StockData where
  Open : List ℚ
  High : List ℚ
  Low : List ℚ
  Close : List ℚ
  Volume : List ℚ
deriving DecidableEq

/-- All five columns of the frame have the same length — inherent to a
pandas DataFrame. -/
def wellFormed (d : StockData) : Prop :=
  d.Open.length = d.Close.length ∧ d.High.length = d.Close.length ∧
  d.Low.length = d.Close.length ∧ d.Volume.length = d.Close.length

instance (d : StockData) : Decidable (wellFormed d) := by
  unfold wellFormed; infer_instance

/-- A frame whose five columns all equal the one given list; convenient
for concrete test inputs. -/
def mkData (cs : List ℚ) : StockData := ⟨cs, cs, cs, cs, cs⟩

/-- The indicator bundle built by `analyze_data` (`analysis` dict keys,
in source order). -/
structure Analysis where
  volatility : FVal
  avg_price : FVal
  price_change : FVal
  price_change_pct : FVal
  avg_volume : FVal
  max_daily_gain : FVal
  max_daily_loss : FVal
  trend : String
  macd : FVal
  macd_signal : FVal
  rsi : FVal
  stoch_k : FVal
  stoch_d : FVal
  bb_upper : FVal
  bb_middle : FVal
  bb_lower : FVal
deriving DecidableEq

/-- `data['Close']` as a series. -/
def closesS (d : StockData) : Series := ofQ d.Close

/-- `daily_returns = data['Close'].pct_change() * 100`. -/
def dailyReturns (d : StockData) : Series :=
  (pctChange (closesS d)).map (·.mul (FVal.fin 100))

/-- `gain = delta.where(delta > 0, 0)` with `delta = data['Close'].diff()`
(the leading `nan` of `delta` compares false and becomes 0). -/
def gainS (d : StockData) : Series :=
  (diffS (closesS d)).map fun v => if (FVal.fin 0).blt v then v else FVal.fin 0

/-- `loss = -delta.where(delta < 0, 0)`. -/
def lossS (d : StockData) : Series :=
  (diffS (closesS d)).map fun v => (if v.blt (FVal.fin 0) then v else FVal.fin 0).neg

/-- `gain.rolling(window=14).mean()` — the RSI average gain. -/
def avgGain (d : StockData) : Series := rollingMean 14 (gainS d)

/-- `loss.rolling(window=14).mean()` — the RSI average loss. -/
def avgLoss (d : StockData) : Series := rollingMean 14 (lossS d)

/-- `rs = gain.rolling(14).mean() / loss.rolling(14).mean()`. -/
def rsS (d : StockData) : Series := List.zipWith FVal.div (avgGain d) (avgLoss d)

/-- `macd = exp1 - exp2` with `exp1/exp2` the span-12/span-26 EWMs of
close. -/
def macdS (d : StockData) : Series :=
  List.zipWith FVal.sub (ewmMean 12 (closesS d)) (ewmMean 26 (closesS d))

/-- `signal = macd.ewm(span=9, adjust=False).mean()`. -/
def signalS (d : StockData) : Series := ewmMean 9 (macdS d)

/-- `low_14 = data['Low'].rolling(window=14).min()`. -/
def low14 (d : StockData) : Series := rollingMin 14 (ofQ d.Low)

/-- `high_14 = data['High'].rolling(window=14).max()`. -/
def high14 (d : StockData) : Series := rollingMax 14 (ofQ d.High)

/-- `k = 100 * ((data['Close'] - low_14) / (high_14 - low_14))`. -/
def kS (d : StockData) : Series :=
  List.zipWith (fun c hl => (FVal.fin 100).mul ((c.sub hl.2).div (hl.1.sub hl.2)))
    (closesS d) ((high14 d).zip (low14 d))

/-- `sma20 = data['Close'].rolling(window=20).mean()`. -/
def sma20 (d : StockData) : Series := rollingMean 20 (closesS d)

/-- `std20 = data['Close'].rolling(window=20).std()`. -/
def std20 (d : StockData) : Series := rollingStd 20 (closesS d)

/-- `sma20 + (std20 * 2)` — the upper Bollinger band series. -/
def bbUpperS (d : StockData) : Series :=
  List.zipWith (fun m s => m.add (s.mul (FVal.fin 2))) (sma20 d) (std20 d)

/-- `sma20 - (std20 * 2)` — the lower Bollinger band series. -/
def bbLowerS (d : StockData) : Series :=
  List.zipWith (fun m s => m.sub (s.mul (FVal.fin 2))) (sma20 d) (std20 d)

/-- The bundle of field values `analyze_data` produces on a frame on
which no `.iloc` access raises (every `.iloc` read is total here, with
junk default `nan` — `analyze_data` below only returns it when the reads
succeed). -/
def analysisOf (d : StockData) : Analysis where
  volatility := (sstd (dailyReturns d)).mul (FVal.fin (Rat.sqrt 252))
  avg_price := smean (closesS d)
  price_change := (ilastD (closesS d)).sub (iheadD (closesS d))
  price_change_pct :=
    (((ilastD (closesS d)).div (iheadD (closesS d))).sub (FVal.fin 1)).mul (FVal.fin 100)
  avg_volume := smean (ofQ d.Volume)
  max_daily_gain := smax (dailyReturns d)
  max_daily_loss := smin (dailyReturns d)
  trend :=
    if (FVal.fin 0).blt ((ilastD (closesS d)).sub (iheadD (closesS d)))
    then "Upward" else "Downward"
  macd := ilastD (macdS d)
  macd_signal := ilastD (signalS d)
  rsi := (FVal.fin 100).sub ((FVal.fin 100).div ((FVal.fin 1).add (ilastD (rsS d))))
  stoch_k := ilastD (kS d)
  stoch_d := ilastD (rollingMean 3 (kS d))
  bb_upper := ilastD (bbUpperS d)
  bb_middle := ilastD (sma20 d)
  bb_lower := ilastD (bbLowerS d)

/-- `analyze_data(data)` from `src/analysis.py`: each `← ...` is one of
the `.iloc` reads the source performs, in source order; `none` models the
`IndexError` the code raises on an empty frame. -/
def analyze_data (d : StockData) : Option Analysis := do
  let lastC ← ilast? (closesS d)
  let firstC ← ihead? (closesS d)
  let macdLast ← ilast? (macdS d)
  let signalLast ← ilast? (signalS d)
  let rsLast ← ilast? (rsS d)
  let kLast ← ilast? (kS d)
  let stochDLast ← ilast? (rollingMean 3 (kS d))
  let bbU ← ilast? (bbUpperS d)
  let bbM ← ilast? (sma20 d)
  let bbL ← ilast? (bbLowerS d)
  some
    { volatility := (sstd (dailyReturns d)).mul (FVal.fin (Rat.sqrt 252))
      avg_price := smean (closesS d)
      price_change := lastC.sub firstC
      price_change_pct := ((lastC.div firstC).sub (FVal.fin 1)).mul (FVal.fin 100)
      avg_volume := smean (ofQ d.Volume)
      max_daily_gain := smax (dailyReturns d)
      max_daily_loss := smin (dailyReturns d)
      trend :=
        if (FVal.fin 0).blt (lastC.sub firstC) then "Upward" else "Downward"
      macd := macdLast
      macd_signal := signalLast
      rsi := (FVal.fin 100).sub ((FVal.fin 100).div ((FVal.fin 1).add rsLast))
      stoch_k := kLast
      stoch_d := stochDLast
      bb_upper := bbU
      bb_middle := bbM
      bb_lower := bbL }

/-! ## The comparison engine (`src/comparison.py`, class `StockComparison`) -/

/-- One row of the performance table built by
`StockComparison.compare_performance`: the five fields it projects from
the bundle. -/
structure Perf where
  price_change_pct : FVal
  avg_volume : FVal
  volatility : FVal
  rsi : FVal
  trend : String
deriving DecidableEq

/-- The projection `compare_performance` applies to one bundle. -/
def toPerf (a : Analysis) : Perf :=
  ⟨a.price_change_pct, a.avg_volume, a.volatility, a.rsi, a.trend⟩

/-- `StockComparison.compare_performance`: run `analyze_data` per symbol
in insertion order (a Python dict preserves it), projecting five fields;
the whole call raises (`none`) as soon as one symbol's frame makes
`analyze_data` raise. -/
def compare_performance : List (String × StockData) → Option (List (String × Perf))
  | [] => some []
  | p :: t => do
    let a ← analyze_data p.2
    let rest ← compare_performance t
    some ((p.1, toPerf a) :: rest)

/-- Pearson correlation of two equal-length position-aligned close
columns, as `DataFrame.corr` computes it: covariance over the product of
standard deviations; the `n-1` normalisations cancel, leaving
`Σ dx·dy / sqrt(Σ dx² · Σ dy²)`; a zero denominator gives `nan`
(zero-variance column). -/
def corrQ (xs ys : List ℚ) : FVal :=
  let mx := xs.sum / (xs.length : ℚ)
  let my := ys.sum / (ys.length : ℚ)
  let dx := xs.map fun v => v - mx
  let dy := ys.map fun v => v - my
  let num := (List.zipWith (fun a b => a * b) dx dy).sum
  let den := Rat.sqrt ((dx.map fun v => v * v).sum * (dy.map fun v => v * v).sum)
  (FVal.fin num).div (FVal.fin den)

/-- The (unnormalised) variance of a close column: the sum of squared
deviations from the mean.  It is zero exactly when the sample variance
is. -/
def varSum (xs : List ℚ) : ℚ :=
  ((xs.map fun v => v - xs.sum / (xs.length : ℚ)).map fun v => v * v).sum

/-- `StockComparison.calculate_correlations`: one close column per
symbol, then the full pairwise Pearson matrix, rows and columns in
insertion order. -/
def calculate_correlations (stocks : List (String × StockData)) :
    List (String × List (String × FVal)) :=
  let prices := stocks.map fun p => (p.1, p.2.Close)
  prices.map fun p => (p.1, prices.map fun q => (q.1, corrQ p.2 q.2))

/-- The matrix entry `corr.loc[a, b]`. -/
def corrEntry (m : List (String × List (String × FVal)))
    (a b : String) : Option FVal :=
  (List.lookup a m).bind fun row => List.lookup b row

/-- `performance[x][field]` as the sort key of `rank_stocks`
(the keys looked up always come from the table itself). -/
def keyOf (perf : List (String × Perf)) (f : Perf → FVal) (s : String) : FVal :=
  match List.lookup s perf with
  | some p => f p
  | none => FVal.nan

/-- Insert into a descending-sorted list, before the first element with
a key less-or-equal to the new one: the stable-descending insertion. -/
def insertDesc (key : String → FVal) (x : String) : List String → List String
  | [] => [x]
  | y :: ys => if (key y).ble (key x) then x :: y :: ys else y :: insertDesc key x ys

/-- `sorted(keys, key=…, reverse=True)`.  Python's sort is stable, and
on totally ordered (finite, comparable) keys every stable descending
sort produces the same list, so this insertion sort models it exactly;
the theorems about it assume the keys are finite (IEEE comparisons on
`nan` keys order nothing). -/
def pySortDesc (key : String → FVal) : List String → List String
  | [] => []
  | x :: xs => insertDesc key x (pySortDesc key xs)

/-- The three rankings returned by `rank_stocks` (`'return'`,
`'volume'`, `'momentum'`; the first is named `ret` here since `return`
is reserved). -/
structure Rankings where
  ret : List String
  volume : List String
  momentum : List String
deriving DecidableEq

/-- `StockComparison.rank_stocks`: the symbol set sorted descending by
price_change_pct, avg_volume and rsi respectively. -/
def rank_stocks (stocks : List (String × StockData)) : Option Rankings :=
  (compare_performance stocks).map fun perf =>
    let ks := perf.map Prod.fst
    { ret := pySortDesc (keyOf perf fun p => p.price_change_pct) ks
      volume := pySortDesc (keyOf perf fun p => p.avg_volume) ks
      momentum := pySortDesc (keyOf perf fun p => p.rsi) ks }

/-- The output of `rank_stocks` is the full symbol set sorted in
descending key order with ties broken by the symbols' position in the
original insertion order. -/
def rankedBy (key : String → FVal) (orig out : List String) : Prop :=
  out.Perm orig ∧
  out.Pairwise fun a b => (key b).blt (key a) = true ∨
    (key a = key b ∧ orig.indexOf a < orig.indexOf b)

/-- The three-symbol scenario of the claim: price_change_pct
10%, -2%, 4% in insertion order AAA, BBB, CCC. -/
def stocksRet : List (String × StockData) :=
  [("AAA", mkData [100, 110]), ("BBB", mkData [100, 98]), ("CCC", mkData [100, 104])]

/-- The tie scenario of the claim: price_change_pct 5%, 5%, 3% in
insertion order A, B, C. -/
def stocksTie : List (String × StockData) :=
  [("A", mkData [100, 105]), ("B", mkData [200, 210]), ("C", mkData [100, 103])]

/-- The frame used to refute C6 as stated: closes far outside the
High/Low range. -/
def frameC6 : StockData :=
  ⟨List.replicate 14 200, List.replicate 14 2, List.replicate 14 1,
   List.replicate 14 200, List.replicate 14 200⟩

/-! ## The insight cache (`src/stockgpt.py`, `StockGPT.generate_insights`) -/

/-- One on-disk cache record for a `(symbol, timeframe)` key: either the
parsed `{analysis, news, insights}` JSON object, or a file whose parse
raises `json.JSONDecodeError` (which the code catches and treats as a
miss). -/
inductive CacheEntry where
  | corrupt : CacheEntry
  | ok : Analysis → List String → String → CacheEntry
deriving DecidableEq

/-- The cache directory: records keyed by `(symbol, timeframe)` (the
file `{symbol}_{timeframe}.json`). -/
abbrev Cache := List ((String × String) × CacheEntry)

/-- Does `{symbol}_{timeframe}.json` exist, and what does it hold? -/
def cacheGet : Cache → String × String → Option CacheEntry
  | [], _ => none
  | (k, e) :: t, key => if key = k then some e else cacheGet t key

/-- (Over)write the record for a key. -/
def cacheSet (c : Cache) (key : String × String) (e : CacheEntry) : Cache :=
  (key, e) :: c

/-- Python `cached_data['analysis'] == analysis`: dict equality compares
the float values with Python `==`, under which `nan` differs from
everything including itself. -/
def pyEqAnalysis (a b : Analysis) : Bool :=
  a.volatility.pyEq b.volatility && a.avg_price.pyEq b.avg_price &&
  a.price_change.pyEq b.price_change && a.price_change_pct.pyEq b.price_change_pct &&
  a.avg_volume.pyEq b.avg_volume && a.max_daily_gain.pyEq b.max_daily_gain &&
  a.max_daily_loss.pyEq b.max_daily_loss && (a.trend == b.trend) &&
  a.macd.pyEq b.macd && a.macd_signal.pyEq b.macd_signal && a.rsi.pyEq b.rsi &&
  a.stoch_k.pyEq b.stoch_k && a.stoch_d.pyEq b.stoch_d &&
  a.bb_upper.pyEq b.bb_upper && a.bb_middle.pyEq b.bb_middle &&
  a.bb_lower.pyEq b.bb_lower

/-- `StockGPT.generate_insights` restricted to its cache behaviour: the
AI provider is abstracted as the text `fresh` it would return for the
prompt.  Result: `(insights returned, whether the provider was called,
cache afterwards)`.  A record that exists, parses, and whose stored
analysis and news equal the current ones (Python `==`) is returned as
is; in every other case (no record, unparseable record, any inequality)
the provider is called and the record is rewritten. -/
def generate_insights (c : Cache) (symbol timeframe : String) (analysis : Analysis)
    (news : List String) (fresh : String) : String × Bool × Cache :=
  match cacheGet c (symbol, timeframe) with
  | some (CacheEntry.ok a n i) =>
    if pyEqAnalysis a analysis && n == news then (i, false, c)
    else (fresh, true, cacheSet c (symbol, timeframe) (CacheEntry.ok analysis news fresh))
  | some CacheEntry.corrupt =>
    (fresh, true, cacheSet c (symbol, timeframe) (CacheEntry.ok analysis news fresh))
  | none =>
    (fresh, true, cacheSet c (symbol, timeframe) (CacheEntry.ok analysis news fresh))

/-- A concrete all-finite bundle for cache tests (a bundle containing a
`nan` can never hit the cache, `nan` being unequal to itself). -/
def bundleA : Analysis :=
  ⟨FVal.fin 1, FVal.fin 2, FVal.fin 3, FVal.fin 4, FVal.fin 5, FVal.fin 6,
   FVal.fin 7, "Upward", FVal.fin 8, FVal.fin 9, FVal.fin 10, FVal.fin 11,
   FVal.fin 12, FVal.fin 13, FVal.fin 14, FVal.fin 15⟩

/-! ## Length bookkeeping -/

theorem length_ofQ (l : List ℚ) : (ofQ l).length = l.length := by
  simp [ofQ]

theorem length_diffS (s : Series) : (diffS s).length = s.length := by
  cases s with
  | nil => rfl
  | cons h t => simp [diffS]

theorem length_pctChange (s : Series) : (pctChange s).length = s.length := by
  cases s with
  | nil => rfl
  | cons h t => simp [pctChange]

theorem length_ewmAux (al : ℚ) (y : FVal) (l : List FVal) :
    (ewmAux al y l).length = l.length := by
  induction l generalizing y with
  | nil => rfl
  | cons x xs ih => simp [ewmAux, ih]

theorem length_ewmMean (span : Nat) (s : Series) :
    (ewmMean span s).length = s.length := by
  cases s with
  | nil => rfl
  | cons x xs => simp [ewmMean, length_ewmAux]

theorem length_rollingApply (k : Nat) (f : Series → FVal) (s : Series) :
    (rollingApply k f s).length = s.length := by
  simp [rollingApply]

theorem ne_nil_of_len {s : Series} (h : 0 < s.length) : s ≠ [] := by
  cases s with
  | nil => simp at h
  | cons a t => simp

theorem length_closesS (d : StockData) : (closesS d).length = d.Close.length := by
  simp [closesS, length_ofQ]

theorem length_dailyReturns (d : StockData) :
    (dailyReturns d).length = d.Close.length := by
  simp [dailyReturns, length_pctChange, length_closesS]

theorem length_macdS (d : StockData) : (macdS d).length = d.Close.length := by
  simp [macdS, length_ewmMean, length_closesS]

theorem length_signalS (d : StockData) : (signalS d).length = d.Close.length := by
  simp [signalS, length_ewmMean, length_macdS]

theorem length_gainS (d : StockData) : (gainS d).length = d.Close.length := by
  simp [gainS, length_diffS, length_closesS]

theorem length_lossS (d : StockData) : (lossS d).length = d.Close.length := by
  simp [lossS, length_diffS, length_closesS]

theorem length_avgGain (d : StockData) : (avgGain d).length = d.Close.length := by
  simp [avgGain, rollingMean, length_rollingApply, length_gainS]

theorem length_avgLoss (d : StockData) : (avgLoss d).length = d.Close.length := by
  simp [avgLoss, rollingMean, length_rollingApply, length_lossS]

theorem length_rsS (d : StockData) : (rsS d).length = d.Close.length := by
  simp [rsS, length_avgGain, length_avgLoss]

theorem length_kS (d : StockData) (hw : wellFormed d) :
    (kS d).length = d.Close.length := by
  obtain ⟨-, hh, hl, -⟩ := hw
  simp [kS, rollingMax, rollingMin, length_closesS, high14, low14,
    length_rollingApply, length_ofQ, hh, hl]

theorem length_sma20 (d : StockData) : (sma20 d).length = d.Close.length := by
  simp [sma20, rollingMean, length_rollingApply, length_closesS]

theorem length_std20 (d : StockData) : (std20 d).length = d.Close.length := by
  simp [std20, rollingStd, length_rollingApply, length_closesS]

theorem length_bbUpperS (d : StockData) : (bbUpperS d).length = d.Close.length := by
  simp [bbUpperS, length_sma20, length_std20]

theorem length_bbLowerS (d : StockData) : (bbLowerS d).length = d.Close.length := by
  simp [bbLowerS, length_sma20, length_std20]

/-! ## Last-element reasoning -/

theorem ilast?_eq_some {s : Series} (h : s ≠ []) : ilast? s = some (ilastD s) := by
  have hl : s.length - 1 < s.length := by
    cases s with
    | nil => simp at h
    | cons a t => simp
  simp [ilast?, ilastD, List.getElem?_eq_getElem hl]

theorem ihead?_eq_some {s : Series} (h : s ≠ []) : ihead? s = some (iheadD s) := by
  have hl : 0 < s.length := by
    cases s with
    | nil => simp at h
    | cons a t => simp
  simp [ihead?, iheadD, List.getElem?_eq_getElem hl]

theorem ilastD_map_range {g : Nat → FVal} {n : Nat} (h : 0 < n) :
    ilastD ((List.range n).map g) = g (n - 1) := by
  have hl : n - 1 < n := Nat.sub_lt h Nat.one_pos
  simp [ilastD, ilast?, List.getElem?_eq_getElem, hl]

theorem ilastD_rolling_lt {k : Nat} {f : Series → FVal} {s : Series}
    (h0 : 0 < s.length) (h : s.length < k) :
    ilastD (rollingApply k f s) = FVal.nan := by
  rw [rollingApply, ilastD_map_range h0]
  have : s.length - 1 + 1 < k := by omega
  simp [this]

theorem ilastD_rolling_ge {k : Nat} {f : Series → FVal} {s : Series}
    (h0 : 0 < k) (h : k ≤ s.length) :
    ilastD (rollingApply k f s) = f (s.drop (s.length - k)) := by
  have hn : 0 < s.length := lt_of_lt_of_le h0 h
  rw [rollingApply, ilastD_map_range hn]
  have h2 : s.length - 1 + 1 = s.length := by omega
  have h1 : ¬ (s.length < k) := by omega
  simp only [window, h2, List.take_length, h1, if_false]

theorem ilastD_zipWith {f : FVal → FVal → FVal} {s t : Series}
    (hlen : s.length = t.length) (h : 0 < s.length) :
    ilastD (List.zipWith f s t) = f (ilastD s) (ilastD t) := by
  have h1 : s.length - 1 < s.length := Nat.sub_lt h Nat.one_pos
  have h2 : s.length - 1 < t.length := hlen ▸ h1
  have h3 : (List.zipWith f s t).length = s.length := by
    simp [List.length_zipWith, hlen]
  have h4 : s.length - 1 < (List.zipWith f s t).length := h3 ▸ h1
  simp only [ilastD, ilast?, h3, ← hlen]
  rw [List.getElem?_eq_getElem h4, List.getElem?_eq_getElem h1,
    List.getElem?_eq_getElem h2]
  simp [List.getElem_zipWith]

theorem ilastD_map {g : FVal → FVal} {s : Series} (h : 0 < s.length) :
    ilastD (s.map g) = g (ilastD s) := by
  have h1 : s.length - 1 < s.length := Nat.sub_lt h Nat.one_pos
  simp only [ilastD, ilast?, List.length_map]
  rw [List.getElem?_map, List.getElem?_eq_getElem h1]
  rfl

/-- On a well-formed non-empty frame no `.iloc` access raises, and the
bundle is `analysisOf d`. -/
theorem analyze_data_eq {d : StockData} (hw : wellFormed d) (h : d.Close ≠ []) :
    analyze_data d = some (analysisOf d) := by
  have hn : 0 < d.Close.length := List.length_pos.mpr h
  rw [analyze_data,
    ilast?_eq_some (ne_nil_of_len (by rw [length_closesS]; exact hn)),
    ihead?_eq_some (ne_nil_of_len (by rw [length_closesS]; exact hn)),
    ilast?_eq_some (ne_nil_of_len (by rw [length_macdS]; exact hn)),
    ilast?_eq_some (ne_nil_of_len (by rw [length_signalS]; exact hn)),
    ilast?_eq_some (ne_nil_of_len (by rw [length_rsS]; exact hn)),
    ilast?_eq_some (ne_nil_of_len (by rw [length_kS d hw]; exact hn)),
    ilast?_eq_some (ne_nil_of_len (by
      rw [rollingMean, length_rollingApply, length_kS d hw]; exact hn)),
    ilast?_eq_some (ne_nil_of_len (by rw [length_bbUpperS]; exact hn)),
    ilast?_eq_some (ne_nil_of_len (by rw [length_sma20]; exact hn)),
    ilast?_eq_some (ne_nil_of_len (by rw [length_bbLowerS]; exact hn))]
  rfl

/-! ## Small facts about `FVal` arithmetic -/

@[simp] theorem fin_add_fin (a b : ℚ) : (FVal.fin a).add (FVal.fin b) = FVal.fin (a + b) := rfl

@[simp] theorem fin_sub_fin (a b : ℚ) : (FVal.fin a).sub (FVal.fin b) = FVal.fin (a - b) := by
  simp [FVal.sub, FVal.neg, FVal.add, sub_eq_add_neg]

@[simp] theorem fin_mul_fin (a b : ℚ) : (FVal.fin a).mul (FVal.fin b) = FVal.fin (a * b) := rfl

theorem fin_div_fin {b : ℚ} (a : ℚ) (h : b ≠ 0) :
    (FVal.fin a).div (FVal.fin b) = FVal.fin (a / b) := by
  simp [FVal.div, h]

@[simp] theorem nan_add (v : FVal) : FVal.nan.add v = FVal.nan := by cases v <;> rfl

@[simp] theorem add_nan (v : FVal) : v.add FVal.nan = FVal.nan := by cases v <;> rfl

@[simp] theorem nan_mul (v : FVal) : FVal.nan.mul v = FVal.nan := by cases v <;> rfl

@[simp] theorem mul_nan (v : FVal) : v.mul FVal.nan = FVal.nan := by cases v <;> rfl

@[simp] theorem nan_sub (v : FVal) : FVal.nan.sub v = FVal.nan := by cases v <;> rfl

@[simp] theorem sub_nan (v : FVal) : v.sub FVal.nan = FVal.nan := by cases v <;> rfl

@[simp] theorem nan_div (v : FVal) : FVal.nan.div v = FVal.nan := by cases v <;> rfl

@[simp] theorem div_nan (v : FVal) : v.div FVal.nan = FVal.nan := by cases v <;> rfl

@[simp] theorem blt_fin_fin (a b : ℚ) : (FVal.fin a).blt (FVal.fin b) = decide (a < b) := rfl

theorem fin_div_zero (a : ℚ) :
    (FVal.fin a).div (FVal.fin 0) =
      (if 0 < a then FVal.inf else if a < 0 then FVal.ninf else FVal.nan) := by
  simp [FVal.div]

/-! ## Last and first elements of a raw column -/

theorem ilastD_ofQ {cs : List ℚ} (h : cs ≠ []) :
    ilastD (ofQ cs) = FVal.fin (cs.getLast h) := by
  have hl : cs.length - 1 < cs.length := by
    have := List.length_pos.mpr h; omega
  simp [ilastD, ilast?, ofQ, List.getElem?_eq_getElem, hl,
    List.getLast_eq_getElem]

theorem ilastD_ofQ_getD {cs : List ℚ} (h : 0 < cs.length) :
    ilastD (ofQ cs) = FVal.fin (cs.getD (cs.length - 1) 0) := by
  have hl : cs.length - 1 < cs.length := by omega
  simp [ilastD, ilast?, ofQ, List.getElem?_eq_getElem, hl,
    List.getD_eq_getElem?_getD]

theorem iheadD_ofQ {cs : List ℚ} (h : cs ≠ []) :
    iheadD (ofQ cs) = FVal.fin (cs.head h) := by
  have hl : 0 < cs.length := List.length_pos.mpr h
  simp [iheadD, ihead?, ofQ, List.getElem?_eq_getElem, hl,
    List.head_eq_getElem]

/-! ## Claim C10: the empty frame -/

/-- C10: on a well-formed frame, `analyze_data` raises (returns `none`)
exactly when the series is empty — the first `.iloc[-1]` on the close
column fails; a bundle is produced for every non-empty frame. -/
theorem claim_C10 (d : StockData) (hw : wellFormed d) :
    analyze_data d = none ↔ d.Close = [] := by
  constructor
  · intro hnone
    by_contra hne
    rw [analyze_data_eq hw hne] at hnone
    simp at hnone
  · intro hc
    have hcl : closesS d = [] := by simp [closesS, ofQ, hc]
    simp [analyze_data, hcl, ilast?]

/-- Witness for C10 at concrete frames: the empty frame raises, a
two-bar frame does not. -/
theorem claim_C10_witness :
    analyze_data (mkData []) = none ∧ analyze_data (mkData [3, 4]) ≠ none := by
  constructor
  · exact (claim_C10 (mkData []) (by decide)).mpr rfl
  · intro hn
    exact absurd ((claim_C10 (mkData [3, 4]) (by decide)).mp hn) (by decide)

/-! ## Claim C3: short series and absence of exceptions -/

/-- C3: on every well-formed non-empty frame `analyze_data` returns a
bundle (no exception; undefined values propagate as `nan`), and when the
series is shorter than 20 bars the three Bollinger fields are `nan`
(insufficient window). -/
theorem claim_C3 (d : StockData) (hw : wellFormed d) (h : d.Close ≠ []) :
    analyze_data d = some (analysisOf d) ∧
      (d.Close.length < 20 →
        (analysisOf d).bb_upper = FVal.nan ∧
        (analysisOf d).bb_middle = FVal.nan ∧
        (analysisOf d).bb_lower = FVal.nan) := by
  have hn : 0 < d.Close.length := List.length_pos.mpr h
  have hcl : 0 < (closesS d).length := by rw [length_closesS]; exact hn
  refine ⟨analyze_data_eq hw h, fun h20 => ?_⟩
  have hs : ilastD (sma20 d) = FVal.nan := by
    rw [sma20, rollingMean]
    exact ilastD_rolling_lt hcl (by rw [length_closesS]; exact h20)
  have hstd : ilastD (std20 d) = FVal.nan := by
    rw [std20, rollingStd]
    exact ilastD_rolling_lt hcl (by rw [length_closesS]; exact h20)
  refine ⟨?_, hs, ?_⟩
  · show ilastD (bbUpperS d) = FVal.nan
    rw [bbUpperS, ilastD_zipWith (by rw [length_sma20, length_std20])
      (by rw [length_sma20]; exact hn), hs, hstd]
    rfl
  · show ilastD (bbLowerS d) = FVal.nan
    rw [bbLowerS, ilastD_zipWith (by rw [length_sma20, length_std20])
      (by rw [length_sma20]; exact hn), hs, hstd]
    rfl

/-- Witness for C3 at a 5-bar frame. -/
theorem claim_C3_witness :
    analyze_data (mkData [1, 2, 3, 4, 5]) = some (analysisOf (mkData [1, 2, 3, 4, 5])) ∧
    (analysisOf (mkData [1, 2, 3, 4, 5])).bb_upper = FVal.nan := by
  have hc := claim_C3 (mkData [1, 2, 3, 4, 5]) (by decide) (by decide)
  exact ⟨hc.1, (hc.2 (by decide)).1⟩

/-! ## Claim C1: trend and the strictly increasing case -/

/-- C1 counterexample: the two-bar close series `[-2, -1]` is strictly
increasing and its trend is `"Upward"`, yet `price_change_pct`, computed
as `(last/first - 1) * 100 = -50`, is not positive: the claim's
`price_change_pct > 0` fails because the first close is negative. -/
theorem claim_C1_counterexample :
    List.Chain' (· < ·) (mkData [-2, -1]).Close ∧
    (analyze_data (mkData [-2, -1])).map Analysis.trend = some "Upward" ∧
    (analyze_data (mkData [-2, -1])).map Analysis.price_change_pct =
      some (FVal.fin (-50)) ∧
    (analyze_data (mkData [-2, -1])).map
      (fun a => (FVal.fin 0).blt a.price_change_pct) = some false := by
  have he := analyze_data_eq (d := mkData [-2, -1]) (by decide) (by decide)
  refine ⟨?_, ?_, ?_, ?_⟩
  · simp [mkData, List.chain'_cons]
  all_goals
    rw [he]
    norm_num [analysisOf, mkData, closesS, ofQ, ilastD, iheadD, ilast?, ihead?,
      FVal.sub, FVal.add, FVal.neg, FVal.mul, FVal.div, FVal.blt]

/-- C1 (amended): on every well-formed non-empty frame the bundle is
produced, `price_change` is last close minus first close, `trend` is
`"Upward"` exactly when `price_change > 0` and `"Downward"` otherwise
(in particular when it is 0); and for a strictly increasing close series
with at least two bars whose first close is positive, `trend` is
`"Upward"` and `price_change_pct > 0`. -/
theorem claim_C1_amended (d : StockData) (hw : wellFormed d) (h : d.Close ≠ []) :
    analyze_data d = some (analysisOf d) ∧
    (analysisOf d).price_change = FVal.fin (d.Close.getLast h - d.Close.head h) ∧
    (analysisOf d).trend =
      (if 0 < d.Close.getLast h - d.Close.head h then "Upward" else "Downward") ∧
    (List.Chain' (· < ·) d.Close → 2 ≤ d.Close.length → 0 < d.Close.head h →
      (analysisOf d).trend = "Upward" ∧
      (analysisOf d).price_change_pct =
        FVal.fin ((d.Close.getLast h / d.Close.head h - 1) * 100) ∧
      0 < (d.Close.getLast h / d.Close.head h - 1) * 100) := by
  have hL : ilastD (closesS d) = FVal.fin (d.Close.getLast h) := ilastD_ofQ h
  have hH : iheadD (closesS d) = FVal.fin (d.Close.head h) := iheadD_ofQ h
  have hpc : (analysisOf d).price_change =
      FVal.fin (d.Close.getLast h - d.Close.head h) := by
    show (ilastD (closesS d)).sub (iheadD (closesS d)) = _
    rw [hL, hH, fin_sub_fin]
  have htrend : (analysisOf d).trend =
      (if 0 < d.Close.getLast h - d.Close.head h then "Upward" else "Downward") := by
    show (if (FVal.fin 0).blt ((ilastD (closesS d)).sub (iheadD (closesS d)))
      then "Upward" else "Downward") = _
    rw [hL, hH, fin_sub_fin, blt_fin_fin]
    simp
  refine ⟨analyze_data_eq hw h, hpc, htrend, fun hchain hlen hpos => ?_⟩
  have hpair := (List.chain'_iff_pairwise.mp hchain)
  have h0 : 0 < d.Close.length := List.length_pos.mpr h
  have hlt : d.Close.head h < d.Close.getLast h := by
    have hij : (0 : ℕ) < d.Close.length - 1 := by omega
    have := (List.pairwise_iff_get.mp hpair) ⟨0, h0⟩
      ⟨d.Close.length - 1, by omega⟩ hij
    simpa [List.get_eq_getElem, List.head_eq_getElem,
      List.getLast_eq_getElem] using this
  have hne0 : d.Close.head h ≠ 0 := ne_of_gt hpos
  have hratio : 1 < d.Close.getLast h / d.Close.head h :=
    (one_lt_div hpos).mpr hlt
  have hq : 0 < (d.Close.getLast h / d.Close.head h - 1) * 100 := by nlinarith
  refine ⟨?_, ?_, hq⟩
  · rw [htrend, if_pos (by nlinarith [hlt])]
  · show (((ilastD (closesS d)).div (iheadD (closesS d))).sub (FVal.fin 1)).mul
      (FVal.fin 100) = _
    rw [hL, hH, fin_div_fin _ hne0, fin_sub_fin, fin_mul_fin]

/-- Witness for C1 (amended) at the strictly increasing positive series
`[100, 101]`. -/
theorem claim_C1_witness :
    (analysisOf (mkData [100, 101])).trend = "Upward" ∧
    (analysisOf (mkData [100, 101])).price_change = FVal.fin 1 := by
  have hc := claim_C1_amended (mkData [100, 101]) (by decide) (by decide)
  have hs := hc.2.2.2 (by simp [mkData, List.chain'_cons]; norm_num)
    (by decide) (by norm_num [mkData])
  refine ⟨hs.1, ?_⟩
  rw [hc.2.1]
  norm_num [mkData]

/-! ## Constant-series computations (for claim C2) -/

theorem foldr_add_replicate (m : Nat) (q : ℚ) :
    List.foldr FVal.add (FVal.fin 0) (List.replicate m (FVal.fin q)) =
      FVal.fin (m * q) := by
  induction m with
  | zero => simp
  | succ k ih =>
    rw [List.replicate_succ, List.foldr_cons, ih, fin_add_fin]
    congr 1
    push_cast
    ring

theorem wmean_replicate (k : Nat) (hk : k ≠ 0) (c : ℚ) :
    wmean k (List.replicate k (FVal.fin c)) = FVal.fin c := by
  have hkq : (k : ℚ) ≠ 0 := Nat.cast_ne_zero.mpr hk
  rw [wmean, foldr_add_replicate, fin_div_fin _ hkq]
  congr 1
  field_simp

theorem Rat_sqrt_zero : Rat.sqrt 0 = 0 := by
  have h := Rat.sqrt_eq (0 : ℚ)
  rw [mul_zero, abs_zero] at h
  exact h

theorem fsqrt_fin_zero : FVal.fsqrt (FVal.fin 0) = FVal.fin 0 := by
  simp [FVal.fsqrt, Rat_sqrt_zero]

theorem wstd_replicate (k : Nat) (hk : 2 ≤ k) (c : ℚ) :
    wstd k (List.replicate k (FVal.fin c)) = FVal.fin 0 := by
  have hk0 : k ≠ 0 := by omega
  have hkq : ((k : ℚ) - 1) ≠ 0 := by
    have : (2 : ℚ) ≤ (k : ℚ) := by exact_mod_cast hk
    linarith
  have he : ((FVal.fin c).sub (FVal.fin c)).mul ((FVal.fin c).sub (FVal.fin c)) =
      FVal.fin 0 := by
    rw [fin_sub_fin, fin_mul_fin]
    norm_num
  rw [wstd, wmean_replicate k hk0]
  simp only [List.map_replicate, he, foldr_add_replicate, mul_zero,
    fin_div_fin _ hkq, zero_div, fsqrt_fin_zero]

theorem ilastD_replicate {x : FVal} {n : Nat} (h : 0 < n) :
    ilastD (List.replicate n x) = x := by
  have hl : n - 1 < n := Nat.sub_lt h Nat.one_pos
  simp [ilastD, ilast?, List.getElem?_replicate_of_lt hl]

theorem diffS_replicate (n : Nat) (c : ℚ) (h : 0 < n) :
    diffS (List.replicate n (FVal.fin c)) =
      FVal.nan :: List.replicate (n - 1) (FVal.fin 0) := by
  obtain ⟨m, rfl⟩ : ∃ m, n = m + 1 := ⟨n - 1, by omega⟩
  rw [List.replicate_succ, diffS]
  congr 1
  rw [← List.replicate_succ, List.zipWith_replicate,
    Nat.min_eq_left (by omega), fin_sub_fin, sub_self]
  simp

theorem pctChange_replicate (n : Nat) (c : ℚ) (h : 0 < n) (hc0 : c ≠ 0) :
    pctChange (List.replicate n (FVal.fin c)) =
      FVal.nan :: List.replicate (n - 1) (FVal.fin 0) := by
  obtain ⟨m, rfl⟩ : ∃ m, n = m + 1 := ⟨n - 1, by omega⟩
  rw [List.replicate_succ, pctChange]
  congr 1
  rw [← List.replicate_succ, List.zipWith_replicate, Nat.min_eq_left (by omega)]
  rw [fin_div_fin _ hc0, div_self hc0, fin_sub_fin, sub_self]
  simp

theorem pctChange_zeros (n : Nat) (h : 0 < n) :
    pctChange (List.replicate n (FVal.fin 0)) =
      FVal.nan :: List.replicate (n - 1) FVal.nan := by
  obtain ⟨m, rfl⟩ : ∃ m, n = m + 1 := ⟨n - 1, by omega⟩
  rw [List.replicate_succ, pctChange]
  congr 1
  rw [← List.replicate_succ, List.zipWith_replicate, Nat.min_eq_left (by omega)]
  rw [fin_div_zero]
  norm_num

theorem ewmAux_const (al : ℚ) (c : ℚ) (m : Nat) :
    ewmAux al (FVal.fin c) (List.replicate m (FVal.fin c)) =
      List.replicate m (FVal.fin c) := by
  induction m with
  | zero => rfl
  | succ k ih =>
    rw [List.replicate_succ, ewmAux]
    have hy : ((FVal.fin (1 - al)).mul (FVal.fin c)).add
        ((FVal.fin al).mul (FVal.fin c)) = FVal.fin c := by
      rw [fin_mul_fin, fin_mul_fin, fin_add_fin]
      congr 1
      ring
    simp only [hy, ih]

theorem ewmMean_replicate (span : Nat) (n : Nat) (c : ℚ) :
    ewmMean span (List.replicate n (FVal.fin c)) =
      List.replicate n (FVal.fin c) := by
  cases n with
  | zero => rfl
  | succ m =>
    rw [List.replicate_succ, ewmMean, ewmAux_const]

theorem sstd_nan_cons_nans (m : Nat) :
    sstd (FVal.nan :: List.replicate m FVal.nan) = FVal.nan := by
  simp [sstd, FVal.isNaN]

theorem sstd_nan_cons_zeros (m : Nat) (h2 : 2 ≤ m) :
    sstd (FVal.nan :: List.replicate m (FVal.fin 0)) = FVal.fin 0 := by
  have hm0 : (m : ℚ) ≠ 0 := by
    have : (2 : ℚ) ≤ (m : ℚ) := by exact_mod_cast h2
    linarith
  have hm1 : ((m : ℚ) - 1) ≠ 0 := by
    have : (2 : ℚ) ≤ (m : ℚ) := by exact_mod_cast h2
    linarith
  have hf : (FVal.nan :: List.replicate m (FVal.fin 0)).filter (fun v => !v.isNaN) =
      List.replicate m (FVal.fin 0) := by
    simp [List.filter_cons, FVal.isNaN]
  simp only [sstd, hf, List.length_replicate]
  rw [if_neg (by omega), foldr_add_replicate, mul_zero, fin_div_fin _ hm0, zero_div]
  simp only [List.map_replicate]
  have he : ((FVal.fin 0).sub (FVal.fin 0)).mul ((FVal.fin 0).sub (FVal.fin 0)) =
      FVal.fin 0 := by
    rw [fin_sub_fin, fin_mul_fin]
    norm_num
  rw [he, foldr_add_replicate, mul_zero, fin_div_fin _ hm1, zero_div, fsqrt_fin_zero]

/-! ## Claim C2: constant close series -/

/-- C2 counterexample: for the constant close series of 20 zeros the
code computes `0/0 = nan` in every daily return, so `volatility` is
`nan`, not the `0` the claim asserts for every constant series. -/
theorem claim_C2_counterexample :
    (analyze_data (mkData (List.replicate 20 (0 : ℚ)))).map Analysis.volatility =
      some FVal.nan ∧
    (analyze_data (mkData (List.replicate 20 (0 : ℚ)))).map Analysis.volatility ≠
      some (FVal.fin 0) := by
  have hw : wellFormed (mkData (List.replicate 20 (0 : ℚ))) := by decide
  have hne : (mkData (List.replicate 20 (0 : ℚ))).Close ≠ [] := by decide
  have he := analyze_data_eq hw hne
  have hcl : closesS (mkData (List.replicate 20 (0 : ℚ))) =
      List.replicate 20 (FVal.fin 0) := by
    simp [closesS, mkData, ofQ]
  have hd : dailyReturns (mkData (List.replicate 20 (0 : ℚ))) =
      FVal.nan :: List.replicate 19 FVal.nan := by
    rw [dailyReturns, hcl, pctChange_zeros 20 (by norm_num)]
    simp
  have hvol : (analysisOf (mkData (List.replicate 20 (0 : ℚ)))).volatility =
      FVal.nan := by
    show (sstd (dailyReturns (mkData (List.replicate 20 (0 : ℚ))))).mul
      (FVal.fin (Rat.sqrt 252)) = FVal.nan
    rw [hd, sstd_nan_cons_nans]
    rfl
  rw [he]
  constructor
  · show some ((analysisOf (mkData (List.replicate 20 (0 : ℚ)))).volatility) =
      some FVal.nan
    rw [hvol]
  · show ¬ some ((analysisOf (mkData (List.replicate 20 (0 : ℚ)))).volatility) =
      some (FVal.fin 0)
    rw [hvol]
    simp

/-- C2 (amended): for every well-formed frame whose close column is a
constant series of a nonzero value `c` with at least 20 bars,
`volatility = 0`, `macd = 0`, `rsi` is `nan` (the `0/0` of zero average
gain over zero average loss), and the three Bollinger fields coincide
(common value `c`, the rolling standard deviation being 0).  The
constant-zero series is excluded: there the daily returns are `0/0 =
nan` and `volatility` is `nan` rather than 0. -/
theorem claim_C2_amended (d : StockData) (hw : wellFormed d) (n : Nat) (c : ℚ)
    (hc : d.Close = List.replicate n c) (hn : 20 ≤ n) (hc0 : c ≠ 0) :
    analyze_data d = some (analysisOf d) ∧
    (analysisOf d).volatility = FVal.fin 0 ∧
    (analysisOf d).macd = FVal.fin 0 ∧
    (analysisOf d).rsi = FVal.nan ∧
    (analysisOf d).bb_upper = (analysisOf d).bb_middle ∧
    (analysisOf d).bb_lower = (analysisOf d).bb_middle ∧
    (analysisOf d).bb_middle = FVal.fin c := by
  have hn0 : 0 < n := by omega
  have hlen : d.Close.length = n := by rw [hc]; simp
  have hne : d.Close ≠ [] := by
    intro h0
    rw [h0] at hlen
    simp at hlen
    omega
  have hcl : closesS d = List.replicate n (FVal.fin c) := by
    rw [closesS, hc]
    simp [ofQ]
  -- volatility
  have hdr : dailyReturns d = FVal.nan :: List.replicate (n - 1) (FVal.fin 0) := by
    rw [dailyReturns, hcl, pctChange_replicate n c hn0 hc0]
    simp
  have hvol : (analysisOf d).volatility = FVal.fin 0 := by
    show (sstd (dailyReturns d)).mul (FVal.fin (Rat.sqrt 252)) = FVal.fin 0
    rw [hdr, sstd_nan_cons_zeros (n - 1) (by omega), fin_mul_fin, zero_mul]
  -- macd
  have hmacdS : macdS d = List.replicate n (FVal.fin 0) := by
    rw [macdS, hcl, ewmMean_replicate, ewmMean_replicate, List.zipWith_replicate']
    rw [fin_sub_fin, sub_self]
  have hmacd : (analysisOf d).macd = FVal.fin 0 := by
    show ilastD (macdS d) = FVal.fin 0
    rw [hmacdS, ilastD_replicate hn0]
  -- rsi
  have hdiff : diffS (closesS d) = FVal.nan :: List.replicate (n - 1) (FVal.fin 0) := by
    rw [hcl, diffS_replicate n c hn0]
  have hgain : gainS d = List.replicate n (FVal.fin 0) := by
    rw [gainS, hdiff]
    simp only [List.map_cons, List.map_replicate]
    norm_num [FVal.blt]
    rw [← List.replicate_succ]
    congr 1
    omega
  have hloss : lossS d = List.replicate n (FVal.fin 0) := by
    rw [lossS, hdiff]
    simp only [List.map_cons, List.map_replicate]
    norm_num [FVal.blt, FVal.neg]
    rw [← List.replicate_succ]
    congr 1
    omega
  have hgLast : ilastD (avgGain d) = FVal.fin 0 := by
    rw [avgGain, hgain, rollingMean,
      ilastD_rolling_ge (by norm_num) (by simp; omega),
      List.length_replicate, List.drop_replicate]
    have h14 : n - (n - 14) = 14 := by omega
    rw [h14, wmean_replicate 14 (by norm_num) 0]
  have hlLast : ilastD (avgLoss d) = FVal.fin 0 := by
    rw [avgLoss, hloss, rollingMean,
      ilastD_rolling_ge (by norm_num) (by simp; omega),
      List.length_replicate, List.drop_replicate]
    have h14 : n - (n - 14) = 14 := by omega
    rw [h14, wmean_replicate 14 (by norm_num) 0]
  have hrs : ilastD (rsS d) = FVal.nan := by
    rw [rsS, ilastD_zipWith (by rw [length_avgGain, length_avgLoss])
      (by rw [length_avgGain, hlen]; omega), hgLast, hlLast, fin_div_zero]
    norm_num
  have hrsi : (analysisOf d).rsi = FVal.nan := by
    show (FVal.fin 100).sub ((FVal.fin 100).div ((FVal.fin 1).add (ilastD (rsS d)))) =
      FVal.nan
    rw [hrs]
    simp
  -- Bollinger bands
  have hsma : ilastD (sma20 d) = FVal.fin c := by
    rw [sma20, rollingMean, hcl,
      ilastD_rolling_ge (by norm_num) (by simp; omega),
      List.length_replicate, List.drop_replicate]
    have h20 : n - (n - 20) = 20 := by omega
    rw [h20, wmean_replicate 20 (by norm_num) c]
  have hstd : ilastD (std20 d) = FVal.fin 0 := by
    rw [std20, rollingStd, hcl,
      ilastD_rolling_ge (by norm_num) (by simp; omega),
      List.length_replicate, List.drop_replicate]
    have h20 : n - (n - 20) = 20 := by omega
    rw [h20, wstd_replicate 20 (by norm_num) c]
  have hmid : (analysisOf d).bb_middle = FVal.fin c := hsma
  have hup : (analysisOf d).bb_upper = FVal.fin c := by
    show ilastD (bbUpperS d) = FVal.fin c
    rw [bbUpperS, ilastD_zipWith (by rw [length_sma20, length_std20])
      (by rw [length_sma20, hlen]; omega), hsma, hstd, fin_mul_fin, fin_add_fin]
    norm_num
  have hlow : (analysisOf d).bb_lower = FVal.fin c := by
    show ilastD (bbLowerS d) = FVal.fin c
    rw [bbLowerS, ilastD_zipWith (by rw [length_sma20, length_std20])
      (by rw [length_sma20, hlen]; omega), hsma, hstd, fin_mul_fin, fin_sub_fin]
    norm_num
  exact ⟨analyze_data_eq hw hne, hvol, hmacd, hrsi, by rw [hup, hmid],
    by rw [hlow, hmid], hmid⟩

/-- Witness for C2 (amended) at the constant series of twenty 5s. -/
theorem claim_C2_witness :
    (analysisOf (mkData (List.replicate 20 (5 : ℚ)))).volatility = FVal.fin 0 ∧
    (analysisOf (mkData (List.replicate 20 (5 : ℚ)))).rsi = FVal.nan ∧
    (analysisOf (mkData (List.replicate 20 (5 : ℚ)))).bb_upper =
      (analysisOf (mkData (List.replicate 20 (5 : ℚ)))).bb_middle := by
  have hc := claim_C2_amended (mkData (List.replicate 20 (5 : ℚ))) (by decide)
    20 5 rfl (by norm_num) (by norm_num)
  exact ⟨hc.2.1, hc.2.2.2.1, hc.2.2.2.2.1⟩

/-! ## RSI machinery: gains and losses are finite and non-negative -/

@[simp] theorem ble_fin_fin (a b : ℚ) : (FVal.fin a).ble (FVal.fin b) = decide (a ≤ b) := rfl

theorem mem_zipWith_sub_ofQ :
    ∀ {s t : List ℚ} {v : FVal},
      v ∈ List.zipWith FVal.sub (ofQ s) (ofQ t) → ∃ q : ℚ, v = FVal.fin q := by
  intro s
  induction s with
  | nil => intro t v hv; simp [ofQ] at hv
  | cons a s ih =>
    intro t v hv
    cases t with
    | nil => simp [ofQ] at hv
    | cons b t =>
      rw [ofQ, ofQ, List.map_cons, List.map_cons, List.zipWith_cons_cons] at hv
      rcases List.mem_cons.mp hv with h | h
      · exact ⟨a - b, by rw [h, fin_sub_fin]⟩
      · exact ih h

theorem diffS_mem {cs : List ℚ} {v : FVal} (hv : v ∈ diffS (ofQ cs)) :
    v = FVal.nan ∨ ∃ q : ℚ, v = FVal.fin q := by
  cases cs with
  | nil => simp [diffS, ofQ] at hv
  | cons a t =>
    rw [ofQ, List.map_cons, diffS] at hv
    rcases List.mem_cons.mp hv with h | h
    · exact Or.inl h
    · right
      have h2 : v ∈ List.zipWith FVal.sub (ofQ t) (ofQ (a :: t)) := by
        rw [ofQ, ofQ, List.map_cons]
        exact h
      exact mem_zipWith_sub_ofQ h2

theorem gainS_mem {d : StockData} {v : FVal} (hv : v ∈ gainS d) :
    ∃ q : ℚ, 0 ≤ q ∧ v = FVal.fin q := by
  rw [gainS] at hv
  obtain ⟨w, hw, rfl⟩ := List.mem_map.mp hv
  rcases diffS_mem hw with rfl | ⟨q, rfl⟩
  · exact ⟨0, le_refl 0, by simp [FVal.blt]⟩
  · rw [blt_fin_fin]
    by_cases hq : 0 < q
    · exact ⟨q, le_of_lt hq, by simp [hq]⟩
    · exact ⟨0, le_refl 0, by simp [hq]⟩

theorem lossS_mem {d : StockData} {v : FVal} (hv : v ∈ lossS d) :
    ∃ q : ℚ, 0 ≤ q ∧ v = FVal.fin q := by
  rw [lossS] at hv
  obtain ⟨w, hw, rfl⟩ := List.mem_map.mp hv
  rcases diffS_mem hw with rfl | ⟨q, rfl⟩
  · refine ⟨0, le_refl 0, ?_⟩
    simp [FVal.blt, FVal.neg]
  · rw [blt_fin_fin]
    by_cases hq : q < 0
    · refine ⟨-q, by linarith, ?_⟩
      simp [hq, FVal.neg]
    · refine ⟨0, le_refl 0, ?_⟩
      simp [hq, FVal.neg]

theorem foldr_add_fins {w : Series}
    (h : ∀ v ∈ w, ∃ q : ℚ, 0 ≤ q ∧ v = FVal.fin q) :
    ∃ s : ℚ, 0 ≤ s ∧ List.foldr FVal.add (FVal.fin 0) w = FVal.fin s := by
  induction w with
  | nil => exact ⟨0, le_refl 0, rfl⟩
  | cons x t ih =>
    obtain ⟨s, hs, hfold⟩ := ih fun v hv => h v (List.mem_cons_of_mem _ hv)
    obtain ⟨q, hq, hx⟩ := h x (List.mem_cons_self x t)
    exact ⟨q + s, add_nonneg hq hs,
      by rw [List.foldr_cons, hfold, hx, fin_add_fin]⟩

/-- The last entry of a 14-period rolling mean of a series of
non-negative finite values is a non-negative finite value. -/
theorem rollingMean14_last {s : Series}
    (hmem : ∀ v ∈ s, ∃ q : ℚ, 0 ≤ q ∧ v = FVal.fin q) (hlen : 14 ≤ s.length) :
    ∃ g : ℚ, 0 ≤ g ∧ ilastD (rollingMean 14 s) = FVal.fin g := by
  rw [rollingMean, ilastD_rolling_ge (by norm_num) hlen]
  obtain ⟨t, ht, hfold⟩ := foldr_add_fins
    (fun v hv => hmem v (List.drop_subset _ _ hv))
  refine ⟨t / 14, by positivity, ?_⟩
  rw [wmean, hfold, fin_div_fin _ (by norm_num)]
  norm_num

/-! ## Claim C5: RSI bounds when the average loss is positive -/

/-- C5: whenever the series has at least 14 bars and the 14-period
average loss at the last bar is a strictly positive (finite) value, the
`rsi` field is finite and lies in the closed interval [0, 100]. -/
theorem claim_C5 (d : StockData) (hw : wellFormed d) (h14 : 14 ≤ d.Close.length)
    (l : ℚ) (hl : ilastD (avgLoss d) = FVal.fin l) (hlpos : 0 < l) :
    analyze_data d = some (analysisOf d) ∧
    ((analysisOf d).rsi).isFinite = true ∧
    (FVal.fin 0).ble ((analysisOf d).rsi) = true ∧
    ((analysisOf d).rsi).ble (FVal.fin 100) = true := by
  have hne : d.Close ≠ [] := by
    intro h0
    rw [h0] at h14
    simp at h14
  obtain ⟨g, hg, hgl⟩ := rollingMean14_last (s := gainS d)
    (fun v hv => gainS_mem hv) (by rw [length_gainS]; exact h14)
  have hx : (0 : ℚ) ≤ g / l := div_nonneg hg (le_of_lt hlpos)
  have hden : (0 : ℚ) < 1 + g / l := by linarith
  have hrs : ilastD (rsS d) = FVal.fin (g / l) := by
    rw [rsS, ilastD_zipWith (by rw [length_avgGain, length_avgLoss])
      (by rw [length_avgGain]; omega), avgGain, hgl, hl,
      fin_div_fin _ (ne_of_gt hlpos)]
  have hrsi : (analysisOf d).rsi = FVal.fin (100 - 100 / (1 + g / l)) := by
    show (FVal.fin 100).sub ((FVal.fin 100).div ((FVal.fin 1).add (ilastD (rsS d)))) = _
    rw [hrs, fin_add_fin, fin_div_fin _ (ne_of_gt hden), fin_sub_fin]
  have hub : 100 / (1 + g / l) ≤ 100 := div_le_self (by norm_num) (by linarith)
  have hlb : 0 < 100 / (1 + g / l) := div_pos (by norm_num) hden
  refine ⟨analyze_data_eq hw hne, ?_, ?_, ?_⟩
  · rw [hrsi]; rfl
  · rw [hrsi, ble_fin_fin]
    simp only [decide_eq_true_eq]
    linarith
  · rw [hrsi, ble_fin_fin]
    simp only [decide_eq_true_eq]
    linarith

/-- Witness for C5 at the strictly decreasing series `[14, 13, …, 1]`,
whose 14-period average loss at the last bar is `13/14 > 0`. -/
theorem claim_C5_witness :
    ((analysisOf (mkData [14, 13, 12, 11, 10, 9, 8, 7, 6, 5, 4, 3, 2, 1])).rsi).isFinite
      = true ∧
    (FVal.fin 0).ble
      ((analysisOf (mkData [14, 13, 12, 11, 10, 9, 8, 7, 6, 5, 4, 3, 2, 1])).rsi) = true ∧
    ((analysisOf (mkData [14, 13, 12, 11, 10, 9, 8, 7, 6, 5, 4, 3, 2, 1])).rsi).ble
      (FVal.fin 100) = true := by
  have hc := claim_C5 (mkData [14, 13, 12, 11, 10, 9, 8, 7, 6, 5, 4, 3, 2, 1])
    (by decide) (by decide) (13 / 14)
    (by
      norm_num [mkData, closesS, ofQ, ilastD, ilast?, avgLoss, lossS, diffS,
        rollingMean, rollingApply, window, wmean, List.range_succ,
        FVal.sub, FVal.add, FVal.neg, FVal.div, FVal.blt])
    (by norm_num)
  exact ⟨hc.2.1, hc.2.2.1, hc.2.2.2⟩

/-! ## Claim C4: zero average loss -/

/-- C4 counterexample: on the strictly increasing 14-bar series
`1, 2, …, 14` the 14-period average loss at the last bar is 0, yet `rsi`
is not non-finite: the code computes `rs = avg_gain/0 = +inf` and
`rsi = 100 - 100/(1 + inf) = 100.0`, a finite value (and no exception
is raised). -/
theorem claim_C4_counterexample :
    ilastD (avgLoss (mkData [1, 2, 3, 4, 5, 6, 7, 8, 9, 10, 11, 12, 13, 14])) =
      FVal.fin 0 ∧
    (analyze_data (mkData [1, 2, 3, 4, 5, 6, 7, 8, 9, 10, 11, 12, 13, 14])).map
      Analysis.rsi = some (FVal.fin 100) ∧
    (analyze_data (mkData [1, 2, 3, 4, 5, 6, 7, 8, 9, 10, 11, 12, 13, 14])).map
      (fun a => a.rsi.isFinite) = some true := by
  have he := analyze_data_eq
    (d := mkData [1, 2, 3, 4, 5, 6, 7, 8, 9, 10, 11, 12, 13, 14])
    (by decide) (by decide)
  have hrsi : (analysisOf (mkData [1, 2, 3, 4, 5, 6, 7, 8, 9, 10, 11, 12, 13, 14])).rsi
      = FVal.fin 100 := by
    norm_num [analysisOf, mkData, closesS, ofQ, ilastD, ilast?, rsS,
      avgGain, avgLoss, gainS, lossS, diffS, rollingMean, rollingApply, window,
      wmean, List.range_succ,
      FVal.sub, FVal.add, FVal.neg, FVal.mul, FVal.div, FVal.blt]
  refine ⟨?_, ?_, ?_⟩
  · norm_num [mkData, closesS, ofQ, ilastD, ilast?, avgLoss, lossS, diffS,
      rollingMean, rollingApply, window, wmean, List.range_succ,
      FVal.sub, FVal.add, FVal.neg, FVal.div, FVal.blt]
  · rw [he]
    show some ((analysisOf (mkData [1, 2, 3, 4, 5, 6, 7, 8, 9, 10, 11, 12, 13, 14])).rsi)
      = some (FVal.fin 100)
    rw [hrsi]
  · rw [he]
    show some ((analysisOf
        (mkData [1, 2, 3, 4, 5, 6, 7, 8, 9, 10, 11, 12, 13, 14])).rsi.isFinite)
      = some true
    rw [hrsi]
    rfl

/-- C4 (amended): on a well-formed frame where the 14-period average
loss at the last bar is 0, no exception is raised and the `rsi` field is
`nan` when the average gain is also 0 (the `0/0` case), and is the
finite value `100` when the average gain is nonzero (the `gain/0 = inf`
case); it is non-finite only in the former case. -/
theorem claim_C4_amended (d : StockData) (hw : wellFormed d)
    (hl : ilastD (avgLoss d) = FVal.fin 0) :
    analyze_data d = some (analysisOf d) ∧
    (ilastD (avgGain d) = FVal.fin 0 → (analysisOf d).rsi = FVal.nan) ∧
    (ilastD (avgGain d) ≠ FVal.fin 0 → (analysisOf d).rsi = FVal.fin 100) := by
  have h14 : 14 ≤ d.Close.length := by
    by_contra hlt
    push_neg at hlt
    rcases Nat.eq_zero_or_pos d.Close.length with h0 | hpos
    · have hz : lossS d = [] :=
        List.eq_nil_of_length_eq_zero (by rw [length_lossS]; exact h0)
      rw [avgLoss, rollingMean, hz] at hl
      exact FVal.noConfusion hl
    · rw [avgLoss, rollingMean,
        ilastD_rolling_lt (by rw [length_lossS]; exact hpos)
          (by rw [length_lossS]; exact hlt)] at hl
      exact FVal.noConfusion hl
  have hne : d.Close ≠ [] := by
    intro h0
    rw [h0] at h14
    simp at h14
  obtain ⟨g, hg, hgl⟩ := rollingMean14_last (s := gainS d)
    (fun v hv => gainS_mem hv) (by rw [length_gainS]; exact h14)
  have hgl2 : ilastD (avgGain d) = FVal.fin g := by rw [avgGain]; exact hgl
  have hrs : ilastD (rsS d) = (FVal.fin g).div (FVal.fin 0) := by
    rw [rsS, ilastD_zipWith (by rw [length_avgGain, length_avgLoss])
      (by rw [length_avgGain]; omega), hgl2, hl]
  refine ⟨analyze_data_eq hw hne, fun h0 => ?_, fun h0 => ?_⟩
  · have hg0 : g = 0 := by
      rw [hgl2] at h0
      exact congrArg (fun v => match v with | FVal.fin q => q | _ => 0) h0
    show (FVal.fin 100).sub ((FVal.fin 100).div ((FVal.fin 1).add (ilastD (rsS d))))
      = FVal.nan
    rw [hrs, hg0, fin_div_zero]
    norm_num
  · have hgpos : 0 < g := by
      rcases lt_or_eq_of_le hg with h | h
      · exact h
      · exact absurd (by rw [hgl2, ← h]) h0
    show (FVal.fin 100).sub ((FVal.fin 100).div ((FVal.fin 1).add (ilastD (rsS d))))
      = FVal.fin 100
    rw [hrs, fin_div_zero, if_pos hgpos]
    show (FVal.fin 100).sub ((FVal.fin 100).div FVal.inf) = FVal.fin 100
    norm_num [FVal.div, FVal.add, FVal.sub, FVal.neg]

/-- Witness for C4 (amended) at the constant 14-bar series of 7s: both
average gain and average loss are 0, `rs = 0/0 = nan`, and `rsi` is
`nan`. -/
theorem claim_C4_witness :
    (analysisOf (mkData [7, 7, 7, 7, 7, 7, 7, 7, 7, 7, 7, 7, 7, 7])).rsi =
      FVal.nan := by
  have hc := claim_C4_amended (mkData [7, 7, 7, 7, 7, 7, 7, 7, 7, 7, 7, 7, 7, 7])
    (by decide)
    (by
      norm_num [mkData, closesS, ofQ, ilastD, ilast?, avgLoss, lossS, diffS,
        rollingMean, rollingApply, window, wmean, List.range_succ,
        FVal.sub, FVal.add, FVal.neg, FVal.div, FVal.blt])
  exact hc.2.1
    (by
      norm_num [mkData, closesS, ofQ, ilastD, ilast?, avgGain, gainS, diffS,
        rollingMean, rollingApply, window, wmean, List.range_succ,
        FVal.sub, FVal.add, FVal.neg, FVal.div, FVal.blt])

/-! ## Stochastic-oscillator machinery -/

theorem foldlmax_fins :
    ∀ (t : Series) (q0 : ℚ), (∀ v ∈ t, ∃ q : ℚ, v = FVal.fin q) →
    ∃ m : ℚ, q0 ≤ m ∧
      t.foldl (fun a b => if a.isNaN || b.isNaN then FVal.nan
        else if a.blt b then b else a) (FVal.fin q0) = FVal.fin m ∧
      ∀ q : ℚ, FVal.fin q ∈ t → q ≤ m := by
  intro t
  induction t with
  | nil =>
    intro q0 hfin
    exact ⟨q0, le_refl _, rfl, by intro q hq; simp at hq⟩
  | cons y t ih =>
    intro q0 hfin
    obtain ⟨q1, rfl⟩ := hfin y (List.mem_cons_self _ _)
    have hstep : (if (FVal.fin q0).isNaN || (FVal.fin q1).isNaN then FVal.nan
        else if (FVal.fin q0).blt (FVal.fin q1) then FVal.fin q1 else FVal.fin q0)
        = FVal.fin (if q0 < q1 then q1 else q0) := by
      by_cases hq : q0 < q1 <;> simp [FVal.isNaN, hq]
    obtain ⟨m, hm0, hfold, hbound⟩ :=
      ih (if q0 < q1 then q1 else q0) (fun v hv => hfin v (List.mem_cons_of_mem _ hv))
    refine ⟨m, ?_, ?_, ?_⟩
    · have : q0 ≤ (if q0 < q1 then q1 else q0) := by split_ifs <;> linarith
      linarith
    · simp only [List.foldl_cons]
      rw [hstep]
      exact hfold
    · intro q hq
      rcases List.mem_cons.mp hq with h | h
      · have hq1 : q = q1 := by
          exact congrArg (fun v => match v with | FVal.fin z => z | _ => 0) h
        have : q1 ≤ (if q0 < q1 then q1 else q0) := by split_ifs <;> linarith
        subst hq1
        linarith
      · exact hbound q h

theorem foldlmin_fins :
    ∀ (t : Series) (q0 : ℚ), (∀ v ∈ t, ∃ q : ℚ, v = FVal.fin q) →
    ∃ m : ℚ, m ≤ q0 ∧
      t.foldl (fun a b => if a.isNaN || b.isNaN then FVal.nan
        else if b.blt a then b else a) (FVal.fin q0) = FVal.fin m ∧
      ∀ q : ℚ, FVal.fin q ∈ t → m ≤ q := by
  intro t
  induction t with
  | nil =>
    intro q0 hfin
    exact ⟨q0, le_refl _, rfl, by intro q hq; simp at hq⟩
  | cons y t ih =>
    intro q0 hfin
    obtain ⟨q1, rfl⟩ := hfin y (List.mem_cons_self _ _)
    have hstep : (if (FVal.fin q0).isNaN || (FVal.fin q1).isNaN then FVal.nan
        else if (FVal.fin q1).blt (FVal.fin q0) then FVal.fin q1 else FVal.fin q0)
        = FVal.fin (if q1 < q0 then q1 else q0) := by
      by_cases hq : q1 < q0 <;> simp [FVal.isNaN, hq]
    obtain ⟨m, hm0, hfold, hbound⟩ :=
      ih (if q1 < q0 then q1 else q0) (fun v hv => hfin v (List.mem_cons_of_mem _ hv))
    refine ⟨m, ?_, ?_, ?_⟩
    · have : (if q1 < q0 then q1 else q0) ≤ q0 := by split_ifs <;> linarith
      linarith
    · simp only [List.foldl_cons]
      rw [hstep]
      exact hfold
    · intro q hq
      rcases List.mem_cons.mp hq with h | h
      · have hq1 : q = q1 := by
          exact congrArg (fun v => match v with | FVal.fin z => z | _ => 0) h
        have : (if q1 < q0 then q1 else q0) ≤ q1 := by split_ifs <;> linarith
        subst hq1
        linarith
      · exact hbound q h

theorem wmax_fins {w : Series} (hne : w ≠ [])
    (hfin : ∀ v ∈ w, ∃ q : ℚ, v = FVal.fin q) :
    ∃ m : ℚ, wmax w = FVal.fin m ∧ ∀ q : ℚ, FVal.fin q ∈ w → q ≤ m := by
  cases w with
  | nil => exact absurd rfl hne
  | cons x t =>
    obtain ⟨q0, rfl⟩ := hfin x (List.mem_cons_self _ _)
    obtain ⟨m, hm0, hfold, hbound⟩ :=
      foldlmax_fins t q0 (fun v hv => hfin v (List.mem_cons_of_mem _ hv))
    refine ⟨m, hfold, ?_⟩
    intro q hq
    rcases List.mem_cons.mp hq with h | h
    · have : q = q0 :=
        congrArg (fun v => match v with | FVal.fin z => z | _ => 0) h
      subst this
      exact hm0
    · exact hbound q h

theorem wmin_fins {w : Series} (hne : w ≠ [])
    (hfin : ∀ v ∈ w, ∃ q : ℚ, v = FVal.fin q) :
    ∃ m : ℚ, wmin w = FVal.fin m ∧ ∀ q : ℚ, FVal.fin q ∈ w → m ≤ q := by
  cases w with
  | nil => exact absurd rfl hne
  | cons x t =>
    obtain ⟨q0, rfl⟩ := hfin x (List.mem_cons_self _ _)
    obtain ⟨m, hm0, hfold, hbound⟩ :=
      foldlmin_fins t q0 (fun v hv => hfin v (List.mem_cons_of_mem _ hv))
    refine ⟨m, hfold, ?_⟩
    intro q hq
    rcases List.mem_cons.mp hq with h | h
    · have : q = q0 :=
        congrArg (fun v => match v with | FVal.fin z => z | _ => 0) h
      subst this
      exact hm0
    · exact hbound q h

/-- The last entry of `high_14` is finite and at least the last bar's
High. -/
theorem high14_last {d : StockData} (h14 : 14 ≤ d.High.length) :
    ∃ m : ℚ, ilastD (high14 d) = FVal.fin m ∧
      d.High.getD (d.High.length - 1) 0 ≤ m := by
  rw [high14, rollingMax, ilastD_rolling_ge (by norm_num) (by rw [length_ofQ]; exact h14)]
  have hwlen : ((ofQ d.High).drop ((ofQ d.High).length - 14)).length = 14 := by
    rw [List.length_drop, length_ofQ]
    omega
  have hfin : ∀ v ∈ (ofQ d.High).drop ((ofQ d.High).length - 14),
      ∃ q : ℚ, v = FVal.fin q := by
    intro v hv
    have := List.drop_subset _ _ hv
    rw [ofQ] at this
    obtain ⟨q, -, rfl⟩ := List.mem_map.mp this
    exact ⟨q, rfl⟩
  obtain ⟨m, hmax, hbound⟩ := wmax_fins (ne_nil_of_len (by rw [hwlen]; norm_num)) hfin
  refine ⟨m, hmax, ?_⟩
  refine hbound _ (List.getElem?_mem (n := 13) ?_)
  rw [List.getElem?_drop]
  have hidx : (ofQ d.High).length - 14 + 13 = d.High.length - 1 := by
    rw [length_ofQ]
    omega
  rw [hidx, ofQ, List.getElem?_map,
    List.getElem?_eq_getElem (by omega : d.High.length - 1 < d.High.length)]
  simp [List.getD_eq_getElem?_getD,
    List.getElem?_eq_getElem (by omega : d.High.length - 1 < d.High.length)]

/-- The last entry of `low_14` is finite and at most the last bar's
Low. -/
theorem low14_last {d : StockData} (h14 : 14 ≤ d.Low.length) :
    ∃ m : ℚ, ilastD (low14 d) = FVal.fin m ∧
      m ≤ d.Low.getD (d.Low.length - 1) 0 := by
  rw [low14, rollingMin, ilastD_rolling_ge (by norm_num) (by rw [length_ofQ]; exact h14)]
  have hwlen : ((ofQ d.Low).drop ((ofQ d.Low).length - 14)).length = 14 := by
    rw [List.length_drop, length_ofQ]
    omega
  have hfin : ∀ v ∈ (ofQ d.Low).drop ((ofQ d.Low).length - 14),
      ∃ q : ℚ, v = FVal.fin q := by
    intro v hv
    have := List.drop_subset _ _ hv
    rw [ofQ] at this
    obtain ⟨q, -, rfl⟩ := List.mem_map.mp this
    exact ⟨q, rfl⟩
  obtain ⟨m, hmin, hbound⟩ := wmin_fins (ne_nil_of_len (by rw [hwlen]; norm_num)) hfin
  refine ⟨m, hmin, ?_⟩
  refine hbound _ (List.getElem?_mem (n := 13) ?_)
  rw [List.getElem?_drop]
  have hidx : (ofQ d.Low).length - 14 + 13 = d.Low.length - 1 := by
    rw [length_ofQ]
    omega
  rw [hidx, ofQ, List.getElem?_map,
    List.getElem?_eq_getElem (by omega : d.Low.length - 1 < d.Low.length)]
  simp [List.getD_eq_getElem?_getD,
    List.getElem?_eq_getElem (by omega : d.Low.length - 1 < d.Low.length)]

/-- The last entry of the `%K` series in terms of the last close and the
last entries of `high_14` and `low_14`. -/
theorem ilastD_kS (d : StockData) (hw : wellFormed d) (hn : 0 < d.Close.length) :
    ilastD (kS d) = (FVal.fin 100).mul
      (((ilastD (closesS d)).sub (ilastD (low14 d))).div
        ((ilastD (high14 d)).sub (ilastD (low14 d)))) := by
  obtain ⟨ho, hh, hl, hv⟩ := hw
  have hlenH : (high14 d).length = d.Close.length := by
    rw [high14, rollingMax, length_rollingApply, length_ofQ, hh]
  have hlenL : (low14 d).length = d.Close.length := by
    rw [low14, rollingMin, length_rollingApply, length_ofQ, hl]
  have hlenC : (closesS d).length = d.Close.length := length_closesS d
  have hzl : ((high14 d).zip (low14 d)).length = d.Close.length := by
    rw [List.length_zip, hlenH, hlenL, Nat.min_self]
  have hlenK : (kS d).length = d.Close.length := length_kS d ⟨ho, hh, hl, hv⟩
  have hi : d.Close.length - 1 < d.Close.length := Nat.sub_lt hn Nat.one_pos
  have hc : (closesS d)[d.Close.length - 1]? = some (ilastD (closesS d)) := by
    have := ilast?_eq_some (s := closesS d) (ne_nil_of_len (by rw [hlenC]; exact hn))
    rw [ilast?, hlenC] at this
    exact this
  have hhigh : (high14 d)[d.Close.length - 1]? = some (ilastD (high14 d)) := by
    have := ilast?_eq_some (s := high14 d) (ne_nil_of_len (by rw [hlenH]; exact hn))
    rw [ilast?, hlenH] at this
    exact this
  have hlow : (low14 d)[d.Close.length - 1]? = some (ilastD (low14 d)) := by
    have := ilast?_eq_some (s := low14 d) (ne_nil_of_len (by rw [hlenL]; exact hn))
    rw [ilast?, hlenL] at this
    exact this
  have hz : ((high14 d).zip (low14 d))[d.Close.length - 1]? =
      some (ilastD (high14 d), ilastD (low14 d)) := by
    rw [List.zip_eq_zipWith, List.getElem?_zipWith, hhigh, hlow]
  have hLHS : ilast? (kS d) = some ((FVal.fin 100).mul
      (((ilastD (closesS d)).sub (ilastD (low14 d))).div
        ((ilastD (high14 d)).sub (ilastD (low14 d))))) := by
    rw [ilast?, hlenK, kS, List.getElem?_zipWith, hc, hz]
  show (ilast? (kS d)).getD FVal.nan = _
  rw [hLHS]
  rfl

/-! ## Claim C6: stochastic %K bounds -/

/-- C6 counterexample: a 14-bar frame whose 14-period high (2) differs
from its 14-period low (1) but whose closes (200) sit outside the
High/Low range; `%K = 100·(200-1)/(2-1) = 19900`, far above 100.  The
claim as stated is false because nothing ties Close to the High/Low
range of the same bars. -/
theorem claim_C6_counterexample :
    14 ≤ frameC6.Close.length ∧
    ilastD (high14 frameC6) ≠ ilastD (low14 frameC6) ∧
    (analyze_data frameC6).map Analysis.stoch_k = some (FVal.fin 19900) ∧
    (FVal.fin 19900).ble (FVal.fin 100) = false := by
  have he := analyze_data_eq (d := frameC6) (by decide) (by decide)
  have hk : (analysisOf frameC6).stoch_k = FVal.fin 19900 := by
    norm_num [frameC6, analysisOf, closesS, ofQ, ilastD, ilast?, kS,
      high14, low14, rollingMax, rollingMin, rollingApply, window, wmax, wmin,
      List.range_succ, List.replicate, List.zip_cons_cons,
      FVal.sub, FVal.add, FVal.neg, FVal.mul, FVal.div, FVal.blt, FVal.isNaN]
  refine ⟨by decide, ?_, ?_, ?_⟩
  · norm_num [frameC6, ilastD, ilast?, high14, low14, rollingMax, rollingMin,
      rollingApply, window, wmax, wmin, ofQ, List.range_succ, List.replicate,
      FVal.blt, FVal.isNaN]
  · rw [he]
    show some ((analysisOf frameC6).stoch_k) = some (FVal.fin 19900)
    rw [hk]
  · norm_num

/-- C6 (amended): if additionally every bar satisfies the OHLC
consistency `Low ≤ Close ≤ High` (which the claim implicitly assumes of
an OHLCV series), then whenever the series has at least 14 bars and the
14-period high differs from the 14-period low at the last bar, `stoch_k`
is finite and lies in [0, 100]. -/
theorem claim_C6_amended (d : StockData) (hw : wellFormed d)
    (h14 : 14 ≤ d.Close.length)
    (hcons : ∀ i, i < d.Close.length →
      d.Low.getD i 0 ≤ d.Close.getD i 0 ∧ d.Close.getD i 0 ≤ d.High.getD i 0)
    (hne14 : ilastD (high14 d) ≠ ilastD (low14 d)) :
    analyze_data d = some (analysisOf d) ∧
    ((analysisOf d).stoch_k).isFinite = true ∧
    (FVal.fin 0).ble ((analysisOf d).stoch_k) = true ∧
    ((analysisOf d).stoch_k).ble (FVal.fin 100) = true := by
  obtain ⟨ho, hh, hl, hv⟩ := hw
  have hn : 0 < d.Close.length := by omega
  have hneC : d.Close ≠ [] := by
    intro h0
    rw [h0] at hn
    simp at hn
  obtain ⟨hq, hhmax, hhge⟩ := high14_last (d := d) (by rw [hh]; exact h14)
  obtain ⟨lq, hlmin, hlle⟩ := low14_last (d := d) (by rw [hl]; exact h14)
  have hcsame : closesS d = ofQ d.Close := rfl
  have hcl : ilastD (closesS d) =
      FVal.fin (d.Close.getD (d.Close.length - 1) 0) := by
    rw [hcsame, ilastD_ofQ_getD hn]
  set c := d.Close.getD (d.Close.length - 1) 0 with hcdef
  have hconsLast := hcons (d.Close.length - 1) (by omega)
  have hgH : d.High.getD (d.High.length - 1) 0 =
      d.High.getD (d.Close.length - 1) 0 := by rw [hh]
  have hgL : d.Low.getD (d.Low.length - 1) 0 =
      d.Low.getD (d.Close.length - 1) 0 := by rw [hl]
  have hc_le_hq : c ≤ hq := le_trans hconsLast.2 (by rw [← hgH]; exact hhge)
  have hlq_le_c : lq ≤ c := le_trans (by rw [← hgL]; exact hlle) hconsLast.1
  have hqne : hq ≠ lq := by
    intro hEq
    apply hne14
    rw [hhmax, hlmin, hEq]
  have hlt : lq < hq := lt_of_le_of_ne (le_trans hlq_le_c hc_le_hq) (Ne.symm hqne)
  have hden : hq - lq ≠ 0 := sub_ne_zero.mpr (ne_of_gt hlt)
  have hk : (analysisOf d).stoch_k = FVal.fin (100 * ((c - lq) / (hq - lq))) := by
    show ilastD (kS d) = _
    rw [ilastD_kS d ⟨ho, hh, hl, hv⟩ hn, hcl, hhmax, hlmin, fin_sub_fin,
      fin_sub_fin, fin_div_fin _ hden, fin_mul_fin]
  have hx0 : 0 ≤ (c - lq) / (hq - lq) := div_nonneg (by linarith) (by linarith)
  have hx1 : (c - lq) / (hq - lq) ≤ 1 :=
    (div_le_one (by linarith)).mpr (by linarith)
  refine ⟨analyze_data_eq ⟨ho, hh, hl, hv⟩ hneC, ?_, ?_, ?_⟩
  · rw [hk]
    rfl
  · rw [hk, ble_fin_fin]
    simp only [decide_eq_true_eq]
    linarith
  · rw [hk, ble_fin_fin]
    simp only [decide_eq_true_eq]
    linarith

/-- Witness for C6 (amended) at the rising consistent series
`1, 2, …, 14` (High = Low = Close per bar): `%K = 100`. -/
theorem claim_C6_witness :
    ((analysisOf (mkData [1, 2, 3, 4, 5, 6, 7, 8, 9, 10, 11, 12, 13, 14])).stoch_k).isFinite
      = true ∧
    (FVal.fin 0).ble
      ((analysisOf (mkData [1, 2, 3, 4, 5, 6, 7, 8, 9, 10, 11, 12, 13, 14])).stoch_k)
      = true ∧
    ((analysisOf (mkData [1, 2, 3, 4, 5, 6, 7, 8, 9, 10, 11, 12, 13, 14])).stoch_k).ble
      (FVal.fin 100) = true := by
  have hc := claim_C6_amended (mkData [1, 2, 3, 4, 5, 6, 7, 8, 9, 10, 11, 12, 13, 14])
    (by decide) (by decide)
    (by
      intro i hi
      have hi14 : i < 14 := by simpa [mkData] using hi
      interval_cases i <;> norm_num [mkData])
    (by
      norm_num [mkData, ilastD, ilast?, high14, low14, rollingMax, rollingMin,
        rollingApply, window, wmax, wmin, ofQ, List.range_succ,
        FVal.blt, FVal.isNaN])
  exact ⟨hc.2.1, hc.2.2.1, hc.2.2.2⟩

/-! ## Claim C8: the correlation matrix -/

theorem lookup_map_pair {β γ : Type} (l : List (String × β))
    (g : String → β → γ) (a : String) :
    List.lookup a (l.map fun p => (p.1, g p.1 p.2)) =
      (List.lookup a l).map fun b => g a b := by
  induction l with
  | nil => rfl
  | cons p t ih =>
    by_cases h : a = p.1
    · subst h
      simp [List.lookup]
    · have hb : (a == p.1) = false := beq_false_of_ne h
      simp only [List.map_cons, List.lookup, hb]
      exact ih

theorem corrQ_comm (xs ys : List ℚ) : corrQ xs ys = corrQ ys xs := by
  simp only [corrQ]
  rw [List.zipWith_comm_of_comm _ mul_comm, mul_comm]

theorem corrQ_self {xs : List ℚ} (h : varSum xs ≠ 0) :
    corrQ xs xs = FVal.fin 1 := by
  have hS : ((xs.map fun v => v - xs.sum / (xs.length : ℚ)).map fun v => v * v).sum
      = varSum xs := rfl
  have hnn : 0 ≤ varSum xs := by
    rw [varSum]
    apply List.sum_nonneg
    intro a ha
    obtain ⟨v, -, rfl⟩ := List.mem_map.mp ha
    exact mul_self_nonneg v
  simp only [corrQ]
  rw [List.zipWith_same, hS, Rat.sqrt_eq, abs_of_nonneg hnn]
  rw [fin_div_fin _ h, div_self h]

/-- Every entry of `calculate_correlations` is the correlation of the
first columns found for the two symbols. -/
theorem corrEntry_eq (stocks : List (String × StockData)) (a b : String) :
    corrEntry (calculate_correlations stocks) a b =
      (List.lookup a (stocks.map fun p => (p.1, p.2.Close))).bind fun xs =>
        (List.lookup b (stocks.map fun p => (p.1, p.2.Close))).map fun ys =>
          corrQ xs ys := by
  simp only [corrEntry, calculate_correlations]
  rw [lookup_map_pair (stocks.map fun p => (p.1, p.2.Close))
    (fun s xs => (stocks.map fun p => (p.1, p.2.Close)).map fun q => (q.1, corrQ xs q.2)) a]
  cases h : List.lookup a (stocks.map fun p => (p.1, p.2.Close)) with
  | none => rfl
  | some xs =>
    simp only [Option.map_some', Option.some_bind]
    rw [lookup_map_pair (stocks.map fun p => (p.1, p.2.Close))
      (fun s ys => corrQ xs ys) b]

/-- C8: the correlation matrix is symmetric, and its diagonal entry is
`1.0` for every symbol whose (first) close column has nonzero
variance. -/
theorem claim_C8 (stocks : List (String × StockData))
    (hlen : ∀ p ∈ stocks, ∀ q ∈ stocks, p.2.Close.length = q.2.Close.length) :
    (∀ a b : String, corrEntry (calculate_correlations stocks) a b =
      corrEntry (calculate_correlations stocks) b a) ∧
    (∀ s d, List.lookup s stocks = some d → varSum d.Close ≠ 0 →
      corrEntry (calculate_correlations stocks) s s = some (FVal.fin 1)) := by
  constructor
  · intro a b
    rw [corrEntry_eq, corrEntry_eq]
    cases ha : List.lookup a (stocks.map fun p => (p.1, p.2.Close)) with
    | none =>
      cases hb : List.lookup b (stocks.map fun p => (p.1, p.2.Close)) with
      | none => rfl
      | some ys => rfl
    | some xs =>
      cases hb : List.lookup b (stocks.map fun p => (p.1, p.2.Close)) with
      | none => rfl
      | some ys =>
        simp only [Option.some_bind, Option.map_some']
        rw [corrQ_comm]
  · intro s d hs hvar
    rw [corrEntry_eq]
    have hps : List.lookup s (stocks.map fun p => (p.1, p.2.Close)) =
        some d.Close := by
      rw [lookup_map_pair stocks (fun _ q => q.Close) s, hs]
      rfl
    rw [hps]
    simp only [Option.some_bind, Option.map_some']
    rw [corrQ_self hvar]

/-- Witness for C8 at a concrete two-symbol table. -/
theorem claim_C8_witness :
    corrEntry (calculate_correlations
        [("X", mkData [1, 2]), ("Y", mkData [2, 1])]) "X" "Y" =
      corrEntry (calculate_correlations
        [("X", mkData [1, 2]), ("Y", mkData [2, 1])]) "Y" "X" ∧
    corrEntry (calculate_correlations
        [("X", mkData [1, 2]), ("Y", mkData [2, 1])]) "X" "X" =
      some (FVal.fin 1) := by
  have hc := claim_C8 [("X", mkData [1, 2]), ("Y", mkData [2, 1])]
    (by
      intro p hp q hq
      fin_cases hp <;> fin_cases hq <;> rfl)
  refine ⟨hc.1 "X" "Y", hc.2 "X" (mkData [1, 2]) rfl ?_⟩
  norm_num [varSum, mkData]

/-! ## Claim C7: rankings -/

theorem isFinite_exists {v : FVal} (h : v.isFinite = true) : ∃ q : ℚ, v = FVal.fin q := by
  cases v with
  | fin q => exact ⟨q, rfl⟩
  | nan => simp [FVal.isFinite] at h
  | inf => simp [FVal.isFinite] at h
  | ninf => simp [FVal.isFinite] at h

theorem mem_insertDesc {key : String → FVal} {x a : String} :
    ∀ {l : List String}, a ∈ insertDesc key x l ↔ a = x ∨ a ∈ l := by
  intro l
  induction l with
  | nil => simp [insertDesc]
  | cons y ys ih =>
    rw [insertDesc]
    by_cases hc : (key y).ble (key x) = true
    · rw [if_pos hc]
      simp only [List.mem_cons]
    · rw [if_neg hc]
      simp only [List.mem_cons, ih]
      tauto

theorem perm_insertDesc (key : String → FVal) (x : String) :
    ∀ (l : List String), (insertDesc key x l).Perm (x :: l) := by
  intro l
  induction l with
  | nil => exact List.Perm.refl _
  | cons y ys ih =>
    rw [insertDesc]
    by_cases hc : (key y).ble (key x) = true
    · rw [if_pos hc]
    · rw [if_neg hc]
      exact (List.Perm.cons y ih).trans (List.Perm.swap x y ys)

theorem pairwise_insertDesc {key : String → FVal} {P : String → String → Prop}
    {x : String} :
    ∀ {s : List String}, (key x).isFinite = true →
    (∀ y ∈ s, (key y).isFinite = true) → (∀ y ∈ s, P x y) →
    s.Pairwise (fun a b => (key b).blt (key a) = true ∨ (key a = key b ∧ P a b)) →
    (insertDesc key x s).Pairwise
      (fun a b => (key b).blt (key a) = true ∨ (key a = key b ∧ P a b)) := by
  intro s
  induction s with
  | nil =>
    intro _ _ _ _
    simp [insertDesc]
  | cons y ys ih =>
    intro hfx hfins hP hs
    obtain ⟨qx, hqx⟩ := isFinite_exists hfx
    obtain ⟨qy, hqy⟩ := isFinite_exists (hfins y (List.mem_cons_self _ _))
    rw [insertDesc]
    by_cases hc : (key y).ble (key x) = true
    · rw [if_pos hc]
      have hyx : qy ≤ qx := by
        rw [hqx, hqy, ble_fin_fin] at hc
        exact of_decide_eq_true hc
      refine List.Pairwise.cons ?_ hs
      intro z hz
      rcases List.mem_cons.mp hz with rfl | hz'
      · rcases lt_or_eq_of_le hyx with hlt | hEq
        · left
          rw [hqx, hqy, blt_fin_fin]
          exact decide_eq_true hlt
        · right
          exact ⟨by rw [hqx, hqy, hEq], hP z (List.mem_cons_self _ _)⟩
      · obtain ⟨qz, hqz⟩ := isFinite_exists (hfins z (List.mem_cons_of_mem _ hz'))
        have hzy : qz ≤ qy := by
          rcases (List.pairwise_cons.mp hs).1 z hz' with hblt | ⟨hEq, -⟩
          · rw [hqy, hqz, blt_fin_fin] at hblt
            exact le_of_lt (of_decide_eq_true hblt)
          · rw [hqy, hqz] at hEq
            exact le_of_eq (FVal.fin.inj hEq).symm
        rcases lt_or_eq_of_le (le_trans hzy hyx) with hlt | hEq
        · left
          rw [hqx, hqz, blt_fin_fin]
          exact decide_eq_true hlt
        · right
          exact ⟨by rw [hqx, hqz, hEq], hP z (List.mem_cons_of_mem _ hz')⟩
    · rw [if_neg hc]
      have hxy : qx < qy := by
        rw [hqx, hqy, ble_fin_fin] at hc
        have := of_decide_eq_false (eq_false_of_ne_true hc)
        linarith [lt_of_not_le this]
      obtain ⟨hyz, hys⟩ := List.pairwise_cons.mp hs
      refine List.Pairwise.cons ?_
        (ih hfx (fun z hz => hfins z (List.mem_cons_of_mem _ hz))
          (fun z hz => hP z (List.mem_cons_of_mem _ hz)) hys)
      intro z hz
      rcases mem_insertDesc.mp hz with rfl | hz'
      · left
        rw [hqx, hqy, blt_fin_fin]
        exact decide_eq_true hxy
      · exact hyz z hz'

theorem pySortDesc_pairwise {key : String → FVal} {P : String → String → Prop} :
    ∀ {l : List String}, (∀ y ∈ l, (key y).isFinite = true) → l.Pairwise P →
    (pySortDesc key l).Perm l ∧
    (pySortDesc key l).Pairwise
      (fun a b => (key b).blt (key a) = true ∨ (key a = key b ∧ P a b)) := by
  intro l
  induction l with
  | nil => intro _ _; exact ⟨List.Perm.refl _, List.Pairwise.nil⟩
  | cons x xs ih =>
    intro hfin hpw
    obtain ⟨hPx, hxs⟩ := List.pairwise_cons.mp hpw
    obtain ⟨hperm, hpair⟩ := ih (fun y hy => hfin y (List.mem_cons_of_mem _ hy)) hxs
    rw [pySortDesc]
    constructor
    · exact (perm_insertDesc key x (pySortDesc key xs)).trans (List.Perm.cons x hperm)
    · refine pairwise_insertDesc (hfin x (List.mem_cons_self _ _)) ?_ ?_ hpair
      · intro y hy
        exact hfin y (List.mem_cons_of_mem _ (hperm.mem_iff.mp hy))
      · intro y hy
        exact hPx y (hperm.mem_iff.mp hy)

theorem pairwise_indexOf_of_nodup {l : List String} (h : l.Nodup) :
    l.Pairwise fun a b => l.indexOf a < l.indexOf b := by
  rw [List.pairwise_iff_get]
  intro i j hij
  rw [List.get_eq_getElem, List.get_eq_getElem,
    List.indexOf_getElem h i.1 i.2, List.indexOf_getElem h j.1 j.2]
  exact hij

theorem pySortDesc_ranked {key : String → FVal} {l : List String}
    (hfin : ∀ y ∈ l, (key y).isFinite = true) (hnd : l.Nodup) :
    rankedBy key l (pySortDesc key l) := by
  obtain ⟨hperm, hpair⟩ :=
    pySortDesc_pairwise (P := fun a b => l.indexOf a < l.indexOf b) hfin
      (pairwise_indexOf_of_nodup hnd)
  exact ⟨hperm, hpair⟩

/-- C7 counterexample: a non-empty mapping whose single symbol carries
an empty frame; `analyze_data` raises inside `compare_performance`, so
`rank_stocks` raises instead of returning rankings. -/
theorem claim_C7_counterexample :
    [("A", mkData [])] ≠ ([] : List (String × StockData)) ∧
    rank_stocks [("A", mkData [])] = none := by
  exact ⟨by simp, rfl⟩

/-- C7 (amended): whenever `rank_stocks` returns (which requires every
symbol's frame to be analyzable — a symbol with an empty frame makes it
raise), each of the three rankings whose metric values are all finite
(comparable) is the full symbol set sorted in descending order of that
metric with ties broken by insertion order; in particular the claim's
two concrete scenarios hold: pcts {AAA: 10, BBB: -2, CCC: 4} rank by
return as ["AAA", "CCC", "BBB"], and tied pcts {A: 5, B: 5, C: 3} rank
as ["A", "B", "C"] with A before B. -/
theorem claim_C7_amended :
    (∀ (stocks : List (String × StockData)) (perf : List (String × Perf))
      (r : Rankings),
      compare_performance stocks = some perf →
      rank_stocks stocks = some r →
      (perf.map Prod.fst).Nodup →
      ((∀ s ∈ perf.map Prod.fst,
          (keyOf perf (fun p => p.price_change_pct) s).isFinite = true) →
        rankedBy (keyOf perf fun p => p.price_change_pct) (perf.map Prod.fst) r.ret) ∧
      ((∀ s ∈ perf.map Prod.fst,
          (keyOf perf (fun p => p.avg_volume) s).isFinite = true) →
        rankedBy (keyOf perf fun p => p.avg_volume) (perf.map Prod.fst) r.volume) ∧
      ((∀ s ∈ perf.map Prod.fst,
          (keyOf perf (fun p => p.rsi) s).isFinite = true) →
        rankedBy (keyOf perf fun p => p.rsi) (perf.map Prod.fst) r.momentum)) ∧
    (rank_stocks stocksRet).map Rankings.ret = some ["AAA", "CCC", "BBB"] ∧
    (rank_stocks stocksTie).map Rankings.ret = some ["A", "B", "C"] := by
  refine ⟨?_, ?_, ?_⟩
  · intro stocks perf r hperf hr hnd
    rw [rank_stocks, hperf, Option.map_some'] at hr
    have hr2 := Option.some.inj hr
    subst hr2
    exact ⟨fun hfin => pySortDesc_ranked hfin hnd,
      fun hfin => pySortDesc_ranked hfin hnd,
      fun hfin => pySortDesc_ranked hfin hnd⟩
  · have he1 := analyze_data_eq (d := mkData [100, 110]) (by decide) (by decide)
    have he2 := analyze_data_eq (d := mkData [100, 98]) (by decide) (by decide)
    have he3 := analyze_data_eq (d := mkData [100, 104]) (by decide) (by decide)
    have hp1 : (analysisOf (mkData [100, 110])).price_change_pct = FVal.fin 10 := by
      norm_num [mkData, analysisOf, closesS, ofQ, ilastD, iheadD, ilast?, ihead?,
        FVal.sub, FVal.add, FVal.neg, FVal.mul, FVal.div]
    have hp2 : (analysisOf (mkData [100, 98])).price_change_pct = FVal.fin (-2) := by
      norm_num [mkData, analysisOf, closesS, ofQ, ilastD, iheadD, ilast?, ihead?,
        FVal.sub, FVal.add, FVal.neg, FVal.mul, FVal.div]
    have hp3 : (analysisOf (mkData [100, 104])).price_change_pct = FVal.fin 4 := by
      norm_num [mkData, analysisOf, closesS, ofQ, ilastD, iheadD, ilast?, ihead?,
        FVal.sub, FVal.add, FVal.neg, FVal.mul, FVal.div]
    simp only [stocksRet, rank_stocks, compare_performance, he1, he2, he3,
      Option.some_bind, Option.map_some']
    have c1 : ((4 : ℚ) ≤ -2) = False := by norm_num
    have c2 : ((4 : ℚ) ≤ 10) = True := by norm_num
    simp [pySortDesc, insertDesc, keyOf, List.lookup, toPerf, hp1, hp2, hp3,
      ble_fin_fin, c1, c2]
  · have he1 := analyze_data_eq (d := mkData [100, 105]) (by decide) (by decide)
    have he2 := analyze_data_eq (d := mkData [200, 210]) (by decide) (by decide)
    have he3 := analyze_data_eq (d := mkData [100, 103]) (by decide) (by decide)
    have hp1 : (analysisOf (mkData [100, 105])).price_change_pct = FVal.fin 5 := by
      norm_num [mkData, analysisOf, closesS, ofQ, ilastD, iheadD, ilast?, ihead?,
        FVal.sub, FVal.add, FVal.neg, FVal.mul, FVal.div]
    have hp2 : (analysisOf (mkData [200, 210])).price_change_pct = FVal.fin 5 := by
      norm_num [mkData, analysisOf, closesS, ofQ, ilastD, iheadD, ilast?, ihead?,
        FVal.sub, FVal.add, FVal.neg, FVal.mul, FVal.div]
    have hp3 : (analysisOf (mkData [100, 103])).price_change_pct = FVal.fin 3 := by
      norm_num [mkData, analysisOf, closesS, ofQ, ilastD, iheadD, ilast?, ihead?,
        FVal.sub, FVal.add, FVal.neg, FVal.mul, FVal.div]
    simp only [stocksTie, rank_stocks, compare_performance, he1, he2, he3,
      Option.some_bind, Option.map_some']
    have c1 : ((3 : ℚ) ≤ 5) = True := by norm_num
    have c2 : ((5 : ℚ) ≤ 5) = True := by norm_num
    simp [pySortDesc, insertDesc, keyOf, List.lookup, toPerf, hp1, hp2, hp3,
      ble_fin_fin, c1, c2]

/-- Witness for C7 (amended) at a one-symbol table. -/
theorem claim_C7_witness :
    rankedBy (keyOf [("A", toPerf (analysisOf (mkData [1, 2])))]
        fun p => p.price_change_pct)
      ["A"]
      (pySortDesc (keyOf [("A", toPerf (analysisOf (mkData [1, 2])))]
        fun p => p.price_change_pct) ["A"]) := by
  have he := analyze_data_eq (d := mkData [1, 2]) (by decide) (by decide)
  have hperf : compare_performance [("A", mkData [1, 2])] =
      some [("A", toPerf (analysisOf (mkData [1, 2])))] := by
    simp only [compare_performance, he, Option.some_bind]
    rfl
  have hr : rank_stocks [("A", mkData [1, 2])] =
      some { ret := pySortDesc (keyOf [("A", toPerf (analysisOf (mkData [1, 2])))]
               fun p => p.price_change_pct) ["A"]
             volume := pySortDesc (keyOf [("A", toPerf (analysisOf (mkData [1, 2])))]
               fun p => p.avg_volume) ["A"]
             momentum := pySortDesc (keyOf [("A", toPerf (analysisOf (mkData [1, 2])))]
               fun p => p.rsi) ["A"] } := by
    rw [rank_stocks, hperf, Option.map_some']
    rfl
  have hc := (claim_C7_amended.1 [("A", mkData [1, 2])]
    [("A", toPerf (analysisOf (mkData [1, 2])))] _ hperf hr (by decide)).1
  refine hc ?_
  intro s hs
  have hs1 : s = "A" := by simpa using hs
  subst hs1
  have hp : (analysisOf (mkData [1, 2])).price_change_pct = FVal.fin 100 := by
    norm_num [mkData, analysisOf, closesS, ofQ, ilastD, iheadD, ilast?, ihead?,
      FVal.sub, FVal.add, FVal.neg, FVal.mul, FVal.div]
  simp [keyOf, List.lookup, toPerf, hp, FVal.isFinite]

/-! ## Claim C9: the insight cache -/

/-- C9: the provider is skipped exactly when a record for the
`(symbol, timeframe)` key exists, parses, and both its stored analysis
and stored news equal (Python `==`) the current ones; a hit returns the
stored insights and leaves the cache unchanged; in every other case the
provider is invoked, the fresh insights are returned, and the record for
the key now holds the current analysis, news, and fresh insights. -/
theorem claim_C9 (c : Cache) (symbol timeframe : String) (analysis : Analysis)
    (news : List String) (fresh : String) :
    ((generate_insights c symbol timeframe analysis news fresh).2.1 = false ↔
      ∃ a n i, cacheGet c (symbol, timeframe) = some (CacheEntry.ok a n i) ∧
        pyEqAnalysis a analysis = true ∧ n = news) ∧
    (∀ a n i, cacheGet c (symbol, timeframe) = some (CacheEntry.ok a n i) →
      pyEqAnalysis a analysis = true → n = news →
      generate_insights c symbol timeframe analysis news fresh = (i, false, c)) ∧
    ((generate_insights c symbol timeframe analysis news fresh).2.1 = true →
      (generate_insights c symbol timeframe analysis news fresh).1 = fresh ∧
      cacheGet (generate_insights c symbol timeframe analysis news fresh).2.2
        (symbol, timeframe) = some (CacheEntry.ok analysis news fresh)) := by
  cases hget : cacheGet c (symbol, timeframe) with
  | none =>
    refine ⟨?_, ?_, ?_⟩
    · rw [generate_insights, hget]
      simp
    · intro a n i hai
      exact absurd hai (by simp)
    · intro _
      rw [generate_insights, hget]
      exact ⟨rfl, by simp [cacheGet, cacheSet]⟩
  | some e =>
    cases e with
    | corrupt =>
      refine ⟨?_, ?_, ?_⟩
      · rw [generate_insights, hget]
        simp
      · intro a n i hai
        exact absurd (Option.some.inj hai) (by simp)
      · intro _
        rw [generate_insights, hget]
        exact ⟨rfl, by simp [cacheGet, cacheSet]⟩
    | ok a n i =>
      have hunfold : generate_insights c symbol timeframe analysis news fresh =
          if pyEqAnalysis a analysis && n == news then (i, false, c)
          else (fresh, true,
            cacheSet c (symbol, timeframe) (CacheEntry.ok analysis news fresh)) := by
        rw [generate_insights, hget]
      by_cases hcond : (pyEqAnalysis a analysis && n == news) = true
      · have hc2 := hcond
        rw [Bool.and_eq_true] at hc2
        have hpa : pyEqAnalysis a analysis = true := hc2.1
        have hn : n = news := eq_of_beq hc2.2
        refine ⟨?_, ?_, ?_⟩
        · rw [hunfold, if_pos hcond]
          simp only [true_iff]
          exact ⟨a, n, i, rfl, hpa, hn⟩
        · intro a2 n2 i2 hai hpa2 hn2
          injection Option.some.inj hai with h1 h2 h3
          subst h1
          subst h2
          subst h3
          rw [hunfold, if_pos hcond]
        · intro habs
          rw [hunfold, if_pos hcond] at habs
          simp at habs
      · refine ⟨?_, ?_, ?_⟩
        · constructor
          · intro h
            rw [hunfold, if_neg hcond] at h
            simp at h
          · rintro ⟨a2, n2, i2, hai, hpa2, hn2⟩
            injection Option.some.inj hai with h1 h2 h3
            subst h1
            subst h2
            refine absurd ?_ hcond
            rw [Bool.and_eq_true]
            exact ⟨hpa2, by rw [hn2]; exact beq_self_eq_true news⟩
        · intro a2 n2 i2 hai hpa2 hn2
          injection Option.some.inj hai with h1 h2 h3
          subst h1
          subst h2
          refine absurd ?_ hcond
          rw [Bool.and_eq_true]
          exact ⟨hpa2, by rw [hn2]; exact beq_self_eq_true news⟩
        · intro _
          rw [hunfold, if_neg hcond]
          exact ⟨rfl, by simp [cacheGet, cacheSet]⟩

/-- Witness for C9: a cache hit at an all-finite stored bundle returns
the stored insights without writing; on the empty cache the provider is
called and the record written. -/
theorem claim_C9_witness :
    generate_insights [(("AAPL", "1mo"), CacheEntry.ok bundleA ["headline"] "cached")]
      "AAPL" "1mo" bundleA ["headline"] "fresh" =
      ("cached", false, [(("AAPL", "1mo"), CacheEntry.ok bundleA ["headline"] "cached")]) ∧
    (generate_insights [] "AAPL" "1mo" bundleA ["headline"] "fresh").1 = "fresh" ∧
    cacheGet (generate_insights [] "AAPL" "1mo" bundleA ["headline"] "fresh").2.2
      ("AAPL", "1mo") = some (CacheEntry.ok bundleA ["headline"] "fresh") := by
  have h1 := (claim_C9 [(("AAPL", "1mo"), CacheEntry.ok bundleA ["headline"] "cached")]
    "AAPL" "1mo" bundleA ["headline"] "fresh").2.1 bundleA ["headline"] "cached"
    (by simp [cacheGet]) (by norm_num [pyEqAnalysis, FVal.pyEq, bundleA]) rfl
  have h2 := (claim_C9 [] "AAPL" "1mo" bundleA ["headline"] "fresh").2.2 (by rfl)
  exact ⟨h1, h2.1, h2.2⟩

end StockGPT
